import Mathlib

/-!
Verification of the beads_viewer analytical engine against its
natural-language specification.

The Go source is shallowly embedded: pure functions become Lean functions,
Go maps become either function-valued maps (read-as-zero / read-as-none,
matching Go's zero-value semantics) or association lists when the source
iterates over the map, Go float64 arithmetic is modelled over ℚ, and Go
panics become Except errors.  Timestamps are modelled as integers (unix
seconds); Go's time.Time zero value is modelled as Option.none where the
source calls IsZero.  All definitions are executable.
-/

namespace BV

/-! ## Generic list/string helpers used by the embedding -/

/-- Byte-wise lexicographic comparison of strings, as used by Go's
sort.Strings.  Modelled on the character (code point) level, which agrees
with Go's byte-level order on ASCII identifiers. -/
def lexLe : List Char → List Char → Bool
  | [], _ => true
  | _ :: _, [] => false
  | a :: as, b :: bs => if a < b then true else if a = b then lexLe as bs else false

/-- String order used for identifier sorting. -/
def strLe (a b : String) : Bool := lexLe a.data b.data

/-- `leadMatch pre l` is true when `pre` is an initial segment of `l`
(Go's strings.HasPrefix on the character level). -/
def leadMatch : List Char → List Char → Bool
  | [], _ => true
  | _ :: _, [] => false
  | a :: as, b :: bs => a = b && leadMatch as bs

/-- Go's strings.TrimPrefix: drop `pre` from the front when it is an
initial segment, once. -/
def trimLead (pre l : List Char) : List Char :=
  if leadMatch pre l then l.drop pre.length else l

/-- Go's strings.TrimSuffix for a one-character suffix: drop the final
character when it equals `c`, once. -/
def trimTrail (c : Char) (l : List Char) : List Char :=
  if l.getLast? = some c then l.dropLast else l

/-- Character-level image of Go's strings.ReplaceAll(path, "\\", "/")
(single-character pattern and replacement, hence a character map). -/
def slashify (c : Char) : Char := if c = '\\' then '/' else c

/-- Go's unicode.IsSpace restricted to the ASCII whitespace characters
that occur in status strings. -/
def isSpaceChar (c : Char) : Bool :=
  c = ' ' || c = '\t' || c = '\n' || c = '\r'

/-- Go's strings.TrimSpace on the character level. -/
def trimSpace (s : String) : String :=
  String.mk (((s.data.dropWhile isSpaceChar).reverse.dropWhile isSpaceChar).reverse)

/-- Go's strings.ToLower restricted to ASCII, which covers every status
string in the data model. -/
def toLowerStr (s : String) : String :=
  String.mk (s.data.map Char.toLower)

/-! ## pkg/search/normalizers.go -/

/-- normalizeStatus (src/pkg/search/normalizers.go): maps a status string
to a ranking component; float64 modelled as ℚ. -/
def normalizeStatus (status : String) : ℚ :=
  if status = "open" then 1
  else if status = "in_progress" then 8/10
  else if status = "blocked" then 5/10
  else if status = "closed" then 1/10
  else if status = "tombstone" then 0
  else 5/10

/-- normalizePriority (src/pkg/search/normalizers.go). -/
def normalizePriority (priority : ℤ) : ℚ :=
  if priority = 0 then 1
  else if priority = 1 then 8/10
  else if priority = 2 then 6/10
  else if priority = 3 then 4/10
  else if priority = 4 then 2/10
  else 5/10

/-- normalizeImpact (src/pkg/search/normalizers.go): blocker count scaled
by the maximum observed blocker count. -/
def normalizeImpact (blockerCount maxBlockerCount : ℤ) : ℚ :=
  if maxBlockerCount = 0 then 5/10
  else if blockerCount ≤ 0 then 0
  else if maxBlockerCount ≤ blockerCount then 1
  else (blockerCount : ℚ) / (maxBlockerCount : ℚ)

/-- normalizeRecency (src/pkg/search/normalizers.go).  The wall clock and
the update timestamp are passed explicitly (unix seconds); `none` models
Go's zero time.Time.  math.Exp is abstracted by the parameter `expf`,
since the claims about this function do not depend on the numerical
values of the exponential, only on its sign and on the cap. -/
def normalizeRecency (expf : ℚ → ℚ) (now : ℤ) (updatedAt : Option ℤ) : ℚ :=
  match updatedAt with
  | none => 5/10
  | some t =>
      let daysSinceUpdate : ℚ := ((now - t : ℤ) : ℚ) / 86400
      if daysSinceUpdate < 0 then 1
      else
        let score := expf (-daysSinceUpdate / 30)
        if 1 < score then 1 else score

/-! ## pkg/correlation normalizePath (src/unnamed/part_009, lines 739-751;
identical in src/pkg/correlation/file_index.go) -/

/-- normalizePath: convert back-slashes to forward slashes, strip a
leading "./" (once), strip a trailing "/" (once). -/
def normalizePath (path : String) : String :=
  String.mk (trimTrail '/' (trimLead ['.', '/'] (path.data.map slashify)))

/-- The character-map part of normalizePath on whole strings. -/
def mapSlash (p : String) : String := String.mk (p.data.map slashify)

/-! ## Association-list maps

Go maps that the source iterates over are embedded as association lists in
insertion order (Go's iteration order is unspecified; every output that
depends on it is sorted afterwards by the source, so the theorems below do
not depend on this choice).  Maps that are only read pointwise are
embedded as functions. -/

/-- Pointwise read of an association list (Go two-value map read). -/
def aloGet {ν : Type} (m : List (String × ν)) (k : String) : Option ν :=
  (m.find? (fun p => decide (p.1 = k))).map (·.2)

/-- Go map write through an update function: replaces the binding in
place when the key is present, appends it otherwise. -/
def aloUpd {ν : Type} (m : List (String × ν)) (k : String) (f : Option ν → ν) :
    List (String × ν) :=
  match m with
  | [] => [(k, f none)]
  | (k', v) :: rest =>
      if k' = k then (k', f (some v)) :: rest else (k', v) :: aloUpd rest k f

/-- Bool-valued insertion sort; stands in for Go's sort.Slice /
sort.Strings (which are not stability-specified; every comparator used by
the source is total, so the sorted result is unique up to ties). -/
def insertB {α : Type} (le : α → α → Bool) (a : α) : List α → List α
  | [] => [a]
  | b :: bs => if le a b then a :: b :: bs else b :: insertB le a bs

/-- Sort a list with the Bool comparator `le`. -/
def sortB {α : Type} (le : α → α → Bool) : List α → List α
  | [] => []
  | a :: as => insertB le a (sortB le as)

/-! ## Correlation data model (src/unnamed/part_009)

`src/unnamed/part_009` is the current revision of the correlation
package's file_index.go (it carries the co-change matrix, the tombstone
classification and the deterministic sorts that the package's tests in
src/unnamed/part_007 exercise); src/pkg/correlation/file_index.go is an
older duplicate of the same package.  Fields not consumed by any code
under verification are omitted.  Timestamps are unix seconds (ℤ). -/

structure FileChange where
  path : String
  insertions : ℤ
  deletions : ℤ
deriving DecidableEq

structure CorrelatedCommit where
  sha : String
  shortSHA : String
  timestamp : ℤ
  files : List FileChange
deriving DecidableEq

/-- The milestone events of a bead history, reduced to the only field
the code under verification reads from them (the event timestamp);
`none` models a nil event pointer. -/
structure Milestones where
  created : Option ℤ
  closed : Option ℤ
deriving DecidableEq

structure BeadHistory where
  beadID : String
  title : String
  status : String
  commits : List CorrelatedCommit
  milestones : Milestones
deriving DecidableEq

/-- HistoryReport: the Histories map (bead id → history) and the
CommitIndex map (commit SHA → bead ids). -/
structure HistoryReport where
  histories : List (String × BeadHistory)
  commitIndex : List (String × List String)
deriving DecidableEq

structure BeadReference where
  beadID : String
  title : String
  status : String
  commitSHAs : List String
  lastTouch : ℤ
  totalChanges : ℤ
deriving DecidableEq

/-! ## BuildFileIndex (src/unnamed/part_009, lines 55-143) -/

/-- One inner step of BuildFileIndex: fold a (commit, file) occurrence
into the reference for (file, bead), creating it when absent.  Mirrors
lines 75-105: create, append the short SHA when new, advance lastTouch,
accumulate insertions+deletions. -/
def updateRef (beadID title status : String) (c : CorrelatedCommit) (fc : FileChange)
    (r0 : Option BeadReference) : BeadReference :=
  let ref : BeadReference := match r0 with
    | none => ⟨beadID, title, status, [], c.timestamp, 0⟩
    | some r => r
  let ref := if c.shortSHA ∈ ref.commitSHAs then ref
             else { ref with commitSHAs := ref.commitSHAs ++ [c.shortSHA] }
  let ref := if ref.lastTouch < c.timestamp then { ref with lastTouch := c.timestamp } else ref
  { ref with totalChanges := ref.totalChanges + fc.insertions + fc.deletions }

/-- fileBeadMap of BuildFileIndex: file → bead id → reference. -/
def buildFileBeadMap (report : HistoryReport) :
    List (String × List (String × BeadReference)) :=
  report.histories.foldl (fun acc (hb : String × BeadHistory) =>
    hb.2.commits.foldl (fun acc c =>
      c.files.foldl (fun acc fc =>
        let normalizedPath := normalizePath fc.path
        aloUpd acc normalizedPath (fun inner0 =>
          let inner := inner0.getD []
          aloUpd inner hb.1 (fun r0 => updateRef hb.1 hb.2.title hb.2.status c fc r0)))
        acc) acc) []

/-- The final FileToBeads mapping: per file, the references sorted by
most-recent touch first (lines 117-133). -/
def BuildFileIndex (report : Option HistoryReport) : List (String × List BeadReference) :=
  match report with
  | none => []
  | some r =>
      (buildFileBeadMap r).map (fun fb =>
        (fb.1, sortB (fun a b : BeadReference => decide (b.lastTouch ≤ a.lastTouch))
                 (fb.2.map (·.2))))

/-! ## Status classification and lookups (src/unnamed/part_009) -/

/-- strings.ToLower(strings.TrimSpace(status)) as used by
classifyBeadStatus. -/
def statusKey (status : String) : String := toLowerStr (trimSpace status)

/-- classifyBeadStatus (lines 753-763): bucket and skip flag. -/
def classifyBeadStatus (status : String) : String × Bool :=
  let normalized := statusKey status
  if normalized = "tombstone" then ("", true)
  else if normalized = "closed" then ("closed", false)
  else ("open", false)

/-- Comparator of sortBeadRefs (lines 765-772): most-recent touch first,
bead id ascending on ties. -/
def beadRefLe (a b : BeadReference) : Bool :=
  if a.lastTouch = b.lastTouch then strLe a.beadID b.beadID
  else decide (b.lastTouch < a.lastTouch)

/-- sortBeadRefs (lines 765-772). -/
def sortBeadRefs (refs : List BeadReference) : List BeadReference :=
  sortB beadRefLe refs

/-- containsBeadRef (lines 774-782). -/
def containsBeadRef (refs : List BeadReference) (beadID : String) : Bool :=
  refs.any (fun r => decide (r.beadID = beadID))

structure FileBeadLookupResult where
  filePath : String
  openBeads : List BeadReference
  closedBeads : List BeadReference
  totalBeads : ℕ
deriving DecidableEq

/-- Refresh a reference from the live bead map (the common
"get current status" step of every lookup): returns the updated
reference and the status string fed to classifyBeadStatus. -/
def refreshRef (beads : List (String × BeadHistory)) (ref : BeadReference) :
    BeadReference × String :=
  match aloGet beads ref.beadID with
  | some history => ({ ref with status := history.status, title := history.title }, history.status)
  | none => (ref, ref.status)

structure FileLookup where
  index : List (String × List BeadReference)
  beads : List (String × BeadHistory)
deriving Inhabited

/-- NewFileLookup (lines 146-159).  The coChange field of the source
struct is carried separately by BuildCoChangeMatrix below. -/
def NewFileLookup (report : Option HistoryReport) : FileLookup :=
  match report with
  | none => ⟨BuildFileIndex none, []⟩
  | some r => ⟨BuildFileIndex (some r), r.histories⟩

/-- The bucketing step of the exact-match branch of LookupByFile
(lines 174-192): refresh the status, skip tombstones, append to the
closed or open bucket. -/
def lookupStepExact (beads : List (String × BeadHistory))
    (acc : List BeadReference × List BeadReference) (ref0 : BeadReference) :
    List BeadReference × List BeadReference :=
  let rs := refreshRef beads ref0
  let bs := classifyBeadStatus rs.2
  if bs.2 then acc
  else if bs.1 = "closed" then (acc.1, acc.2 ++ [rs.1])
  else (acc.1 ++ [rs.1], acc.2)

/-- The bucketing step of the directory-prefix branch of LookupByFile
(lines 203-227): as the exact step, but deduplicated by bead id. -/
def lookupStepDedup (beads : List (String × BeadHistory))
    (acc : List BeadReference × List BeadReference) (ref0 : BeadReference) :
    List BeadReference × List BeadReference :=
  let rs := refreshRef beads ref0
  let bs := classifyBeadStatus rs.2
  if bs.2 then acc
  else if bs.1 = "closed" then
    if containsBeadRef acc.2 rs.1.beadID then acc else (acc.1, acc.2 ++ [rs.1])
  else
    if containsBeadRef acc.1 rs.1.beadID then acc else (acc.1 ++ [rs.1], acc.2)

/-- One index entry of the directory-prefix fallback (lines 201-229):
when the entry's file lies under the queried directory, fold its
references through the deduplicating bucketing step. -/
def lookupDirStep (beads : List (String × BeadHistory)) (normalizedPath : String)
    (acc : List BeadReference × List BeadReference)
    (fp : String × List BeadReference) :
    List BeadReference × List BeadReference :=
  if leadMatch (normalizedPath ++ "/").data fp.1.data then
    fp.2.foldl (lookupStepDedup beads) acc
  else acc

/-- LookupByFile (lines 163-235): exact match first, then the
directory-prefix fallback with per-bucket deduplication; both buckets
sorted by sortBeadRefs, tombstones skipped via classifyBeadStatus. -/
def LookupByFile (fl : FileLookup) (path : String) : FileBeadLookupResult :=
  let normalizedPath := normalizePath path
  match aloGet fl.index normalizedPath with
  | some refs =>
      let acc := refs.foldl (lookupStepExact fl.beads) ([], [])
      let ob := sortBeadRefs acc.1
      let cb := sortBeadRefs acc.2
      ⟨path, ob, cb, ob.length + cb.length⟩
  | none =>
      let acc := fl.index.foldl (lookupDirStep fl.beads normalizedPath) ([], [])
      let ob := sortBeadRefs acc.1
      let cb := sortBeadRefs acc.2
      ⟨path, ob, cb, ob.length + cb.length⟩

/-! ## Co-change matrix (src/unnamed/part_009, lines 395-464) -/

structure CoChangeMatrix where
  matrix : String → String → ℕ
  fileCommitCounts : String → ℕ
  commitFiles : List (String × List String)

/-- Increment of Matrix[a][b] (line 457). -/
def bumpPair (m : String → String → ℕ) (a b : String) : String → String → ℕ :=
  fun x y => if x = a ∧ y = b then m x y + 1 else m x y

/-- Increment of FileCommitCounts[f] (line 444). -/
def bumpCount (cnt : String → ℕ) (f : String) : String → ℕ :=
  fun x => if x = f then cnt x + 1 else cnt x

/-- The ordered pairs visited by the nested index loops of lines 448-459:
for the element at position i, every element at a position j ≠ i is
paired with it, earlier positions first — `seen` holds the elements
before position i. -/
def commitPairs (seen : List String) : List String → List (String × String)
  | [] => []
  | a :: rest => ((seen ++ rest).map (fun b => (a, b))) ++ commitPairs (seen ++ [a]) rest

/-- The normalized non-empty file paths of one commit (lines 431-437). -/
def commitFileList (c : CorrelatedCommit) : List String :=
  (c.files.map (fun fc => normalizePath fc.path)).filter (fun p => decide (p ≠ ""))

/-- Process one commit of a bead history (lines 424-460): skip already
processed SHAs, then update commitFiles, the per-file commit counts and
the pair matrix. -/
def processCommit (st : CoChangeMatrix × List String) (c : CorrelatedCommit) :
    CoChangeMatrix × List String :=
  if c.sha ∈ st.2 then st
  else
    let files := commitFileList c
    let cf := aloUpd st.1.commitFiles c.shortSHA (fun _ => files)
    let counts := files.foldl bumpCount st.1.fileCommitCounts
    let mat := (commitPairs [] files).foldl (fun mm p => bumpPair mm p.1 p.2) st.1.matrix
    (⟨mat, counts, cf⟩, st.2 ++ [c.sha])

/-- BuildCoChangeMatrix (lines 408-464). -/
def BuildCoChangeMatrix (report : Option HistoryReport) : CoChangeMatrix :=
  match report with
  | none => ⟨fun _ _ => 0, fun _ => 0, []⟩
  | some r =>
      (r.histories.foldl (fun st hb => hb.2.commits.foldl processCommit st)
        (⟨fun _ _ => 0, fun _ => 0, []⟩, [])).1

/-! ## ImpactAnalysis (src/unnamed/part_009, lines 546-735) -/

structure AffectedBead where
  beadID : String
  title : String
  status : String
  overlapFiles : List String
  overlapCount : ℕ
  lastActivity : ℤ
  relevance : ℚ
  totalChanges : ℤ
deriving DecidableEq

structure ImpactResult where
  files : List String
  affectedBeads : List AffectedBead
  riskLevel : String
  riskScore : ℚ
  warnings : List String
  summary : String
deriving DecidableEq

/-- Lines 583-595: normalize, drop empty/whitespace-only paths,
deduplicate (the `seen` set agrees with membership in the output). -/
def normalizeImpactFiles (files : List String) : List String :=
  files.foldl (fun out f =>
    let norm := trimSpace (normalizePath f)
    if norm = "" then out
    else if norm ∈ out then out else out ++ [norm]) []

/-- Fold one looked-up reference into the affected-bead map
(lines 609-650, identical for the open and closed branches). -/
def absorbRef (ab0 : Option AffectedBead) (ref : BeadReference) (filePath : String) :
    AffectedBead :=
  let ab : AffectedBead := match ab0 with
    | none => ⟨ref.beadID, ref.title, ref.status, [], 0, ref.lastTouch, 0, 0⟩
    | some ab => ab
  let ab := { ab with overlapFiles := ab.overlapFiles ++ [filePath] }
  let ab := { ab with overlapCount := ab.overlapFiles.length }
  let ab := { ab with totalChanges := ab.totalChanges + ref.totalChanges }
  if ab.lastActivity < ref.lastTouch then { ab with lastActivity := ref.lastTouch } else ab

/-- statusPriority of the sort at lines 678-685; a Go map read that
yields 0 for keys outside the map. -/
def statusPriority (s : String) : ℕ :=
  if s = "in_progress" then 0 else if s = "open" then 1 else if s = "closed" then 2 else 0

/-- Comparator of the affected-bead sort: status priority ascending,
then relevance descending. -/
def affectedLe (a b : AffectedBead) : Bool :=
  if statusPriority a.status = statusPriority b.status then decide (b.relevance ≤ a.relevance)
  else decide (statusPriority a.status < statusPriority b.status)

/-- pluralize (lines 784-790). -/
def pluralize (count : ℕ) (singular : String) : String :=
  if count = 1 then singular else singular ++ "s"

/-- The body of ImpactAnalysis after input normalization (lines 602-734),
over the already normalized, deduplicated non-empty file list. -/
def impactCore (fl : FileLookup) (now : ℤ) (normalizedFiles : List String) : ImpactResult :=
  let beadMap : List (String × AffectedBead) := normalizedFiles.foldl (fun bm filePath =>
    let lookup := LookupByFile fl filePath
    let bm := lookup.openBeads.foldl (fun bm ref =>
      aloUpd bm ref.beadID (fun ab0 => absorbRef ab0 ref filePath)) bm
    lookup.closedBeads.foldl (fun bm ref =>
      if 604800 < now - ref.lastTouch then bm
      else aloUpd bm ref.beadID (fun ab0 => absorbRef ab0 ref filePath)) bm) []
  let scored := beadMap.foldl (fun (acc : List AffectedBead × ℕ × ℕ × ℕ) kv =>
    let ab := kv.2
    let daysSince : ℚ := ((now - ab.lastActivity : ℤ) : ℚ) / 86400
    let recencyScore := if 1 - daysSince / 7 < 0 then 0 else 1 - daysSince / 7
    let overlapScore : ℚ := (ab.overlapCount : ℚ) / (normalizedFiles.length : ℚ)
    let sm : ℚ × ℕ × ℕ × ℕ :=
      if ab.status = "in_progress" then (1, acc.2.1 + 1, acc.2.2.1, acc.2.2.2)
      else if ab.status = "open" then (8/10, acc.2.1, acc.2.2.1 + 1, acc.2.2.2)
      else (5/10, acc.2.1, acc.2.2.1, acc.2.2.2 + 1)
    let relevance := recencyScore * (4/10) + overlapScore * (4/10) + sm.1 * (2/10)
    (acc.1 ++ [{ ab with relevance := relevance }], sm.2)) ([], 0, 0, 0)
  let affected := sortB affectedLe scored.1
  let inProgressCount := scored.2.1
  let openCount := scored.2.2.1
  let recentClosedCount := scored.2.2.2
  let riskScore : ℚ := (inProgressCount : ℚ) * (4/10) + (openCount : ℚ) * (2/10)
      + (recentClosedCount : ℚ) * (5/100)
  let riskScore := if 3 < normalizedFiles.length then riskScore + 1/10 else riskScore
  let riskScore := if 1 < riskScore then 1 else riskScore
  let riskLevel := if 7/10 ≤ riskScore then "critical"
    else if 4/10 ≤ riskScore then "high"
    else if 2/10 ≤ riskScore then "medium"
    else "low"
  let warnings := (if 0 < inProgressCount then
      ["Active work in progress on these files - coordinate before making changes"] else [])
    ++ (if 0 < openCount then
      ["Open beads touch these files - review before modifying"] else [])
  let total := inProgressCount + openCount + recentClosedCount
  let summary :=
    if total = 0 then "No beads found touching these files - safe to proceed"
    else
      let parts := (if 0 < inProgressCount then
          [toString inProgressCount ++ " " ++ pluralize inProgressCount "bead" ++ " in progress"] else [])
        ++ (if 0 < openCount then
          [toString openCount ++ " open " ++ pluralize openCount "bead"] else [])
        ++ (if 0 < recentClosedCount then
          [toString recentClosedCount ++ " recently closed " ++ pluralize recentClosedCount "bead"] else [])
      let pre := if 0 < inProgressCount then "⚠️ Conflict risk: " else "Found "
      pre ++ String.intercalate ", " parts ++ " touching these files"
  ⟨normalizedFiles, affected, riskLevel, riskScore, warnings, summary⟩

/-- ImpactAnalysis (lines 569-735).  The wall clock is passed explicitly
as `now`. -/
def ImpactAnalysis (fl : FileLookup) (now : ℤ) (files : List String) : ImpactResult :=
  if files = [] then ⟨[], [], "low", 0, [], "No files to analyze"⟩
  else
    let normalizedFiles := normalizeImpactFiles files
    if normalizedFiles = [] then ⟨[], [], "low", 0, [], "No valid files to analyze"⟩
    else impactCore fl now normalizedFiles

/-! ## GetHotspots (src/unnamed/part_009, lines 316-368) -/

structure FileHotspot where
  filePath : String
  totalBeads : ℕ
  openBeads : ℕ
  closedBeads : ℕ
deriving DecidableEq

/-- GetHotspots: files sorted by reference count descending, capped at
`limit`, with per-file open/closed counts from the live bead map; a
bead counts as open whenever its live status differs from "closed". -/
def GetHotspots (fl : FileLookup) (limit : ℤ) : List FileHotspot :=
  let counts := sortB
    (fun a b : String × List BeadReference => decide (b.2.length ≤ a.2.length)) fl.index
  let lim : ℕ := if limit ≤ 0 ∨ (counts.length : ℤ) < limit then counts.length
    else limit.toNat
  (counts.take lim).map (fun c =>
    let openCount := (c.2.filter (fun ref =>
      let status := match aloGet fl.beads ref.beadID with
        | some history => history.status
        | none => ref.status
      decide (status ≠ "closed"))).length
    ⟨c.1, c.2.length, openCount, c.2.length - openCount⟩)

/-! ## Related-work discovery (src/pkg/correlation/related.go)

Relevances and option fields are Go ints, embedded as ℤ; the
GeneratedAt wall-clock stamp is omitted and time.Now is the explicit
`now` parameter.  related.go's normalizeStatus (lower-case + trim) is
the statusKey function above. -/

structure RelatedWorkBead where
  beadID : String
  title : String
  status : String
  relationType : String
  relevance : ℤ
  reason : String
  sharedFiles : List String
  sharedCommits : List String
deriving DecidableEq

structure RelatedWorkResult where
  targetBeadID : String
  targetTitle : String
  fileOverlap : List RelatedWorkBead
  commitOverlap : List RelatedWorkBead
  dependencyCluster : List RelatedWorkBead
  concurrent : List RelatedWorkBead
  totalRelated : ℕ
deriving DecidableEq

structure RelatedWorkOptions where
  minRelevance : ℤ
  maxResults : ℤ
  concurrencyWindow : ℤ
  includeClosed : Bool
  fileLookup : Option FileLookup
  dependencyGraph : Option (List (String × List String))

/-- DefaultRelatedWorkOptions (related.go lines 59-66). -/
def DefaultRelatedWorkOptions : RelatedWorkOptions :=
  ⟨20, 10, 604800, false, none, none⟩

/-- shouldSkipRelatedStatus (lines 496-505): tombstones always skipped,
closed beads skipped unless requested. -/
def shouldSkipRelatedStatus (status : String) (includeClosed : Bool) : Bool :=
  if statusKey status = "tombstone" then true
  else if !includeClosed && statusKey status = "closed" then true
  else false

/-- Comparator of sortRelatedResults (lines 507-514): relevance
descending, bead id ascending on ties. -/
def relatedLe (a b : RelatedWorkBead) : Bool :=
  if a.relevance = b.relevance then strLe a.beadID b.beadID
  else decide (b.relevance < a.relevance)

/-- The shared tail of every category (sortRelatedResults plus the
MaxResults cap). -/
def finishRelated (opts : RelatedWorkOptions) (results : List RelatedWorkBead) :
    List RelatedWorkBead :=
  let results := sortB relatedLe results
  if 0 < opts.maxResults ∧ opts.maxResults < (results.length : ℤ) then
    results.take opts.maxResults.toNat
  else results

/-- formatIntRelated (lines 558-576); the manual digit loop renders the
same decimal string as the standard rendering. -/
def formatIntRelated (n : ℤ) : String := toString n

def formatPluralRelated (n : ℤ) (singular plural : String) : String :=
  if n = 1 then "1 " ++ singular else formatIntRelated n ++ " " ++ plural

def formatPctRelated (pct : ℤ) : String :=
  if pct ≤ 0 then "" else " (" ++ formatIntRelated pct ++ "%)"

def formatFileOverlapReason (shared total : ℤ) : String :=
  let pct := shared * 100 / total
  if shared = 1 then "1 shared file"
  else formatPluralRelated shared "shared file" "shared files" ++ formatPctRelated pct

def formatCommitOverlapReason (shared total : ℤ) : String :=
  let pct := shared * 100 / total
  if shared = 1 then "1 shared commit"
  else formatPluralRelated shared "shared commit" "shared commits" ++ formatPctRelated pct

/-- formatConcurrentReason (lines 536-542); durations in seconds, days
by integer division. -/
def formatConcurrentReason (overlap : ℤ) : String :=
  let days := overlap / 86400
  if days < 1 then "Active in same time window"
  else formatPluralRelated days "day" "days" ++ " of overlapping activity"

def limitStrings (s : List String) (mx : ℕ) : List String :=
  if s.length ≤ mx then s else s.take mx

/-- shortenSHAs (lines 585-595); sha[:7] taken on the character level. -/
def shortenSHAs (shas : List String) : List String :=
  shas.map (fun sha => if 7 < sha.length then String.mk (sha.data.take 7) else sha)

def appendUnique (l : List String) (s : String) : List String :=
  if s ∈ l then l else l ++ [s]

/-- findFileOverlap (lines 140-214). -/
def findFileOverlap (hr : HistoryReport) (targetFiles : List String) (fl : FileLookup)
    (opts : RelatedWorkOptions) (seen : List String) : List RelatedWorkBead :=
  if targetFiles = [] then []
  else
    let overlapCount := targetFiles.foldl (fun oc file =>
      let lookup := LookupByFile fl file
      let oc := lookup.openBeads.foldl (fun oc ref =>
        if ref.beadID ∈ seen then oc
        else aloUpd oc ref.beadID (fun l0 => l0.getD [] ++ [file])) oc
      if opts.includeClosed then
        lookup.closedBeads.foldl (fun oc ref =>
          if ref.beadID ∈ seen then oc
          else aloUpd oc ref.beadID (fun l0 => l0.getD [] ++ [file])) oc
      else oc) ([] : List (String × List String))
    let results := overlapCount.foldl (fun rs kv =>
      match aloGet hr.histories kv.1 with
      | none => rs
      | some history =>
          if shouldSkipRelatedStatus history.status opts.includeClosed then rs
          else
            let relevance := min ((kv.2.length : ℤ) * 100 / (targetFiles.length : ℤ)) 100
            if relevance < opts.minRelevance then rs
            else rs ++ [⟨kv.1, history.title, history.status, "file_overlap", relevance,
              formatFileOverlapReason (kv.2.length : ℤ) (targetFiles.length : ℤ),
              limitStrings (sortB strLe kv.2) 5, []⟩]) []
    finishRelated opts results

/-- findCommitOverlap (lines 217-285). -/
def findCommitOverlap (hr : HistoryReport) (targetID : String)
    (targetCommits : List String) (opts : RelatedWorkOptions) (seen : List String) :
    List RelatedWorkBead :=
  if targetCommits = [] then []
  else
    let sharedCount := targetCommits.foldl (fun sc sha =>
      match aloGet hr.commitIndex sha with
      | none => sc
      | some beadIDs =>
          beadIDs.foldl (fun sc beadID =>
            if beadID ∈ seen ∨ beadID = targetID then sc
            else aloUpd sc beadID (fun l0 => appendUnique (l0.getD []) sha)) sc)
      ([] : List (String × List String))
    let results := sharedCount.foldl (fun rs kv =>
      match aloGet hr.histories kv.1 with
      | none => rs
      | some history =>
          if shouldSkipRelatedStatus history.status opts.includeClosed then rs
          else
            let relevance := min ((kv.2.length : ℤ) * 100 / (targetCommits.length : ℤ)) 100
            if relevance < opts.minRelevance then rs
            else rs ++ [⟨kv.1, history.title, history.status, "commit_overlap", relevance,
              formatCommitOverlapReason (kv.2.length : ℤ) (targetCommits.length : ℤ), [],
              limitStrings (shortenSHAs (sortB strLe kv.2)) 5⟩]) []
    finishRelated opts results

/-- findDependencyCluster (lines 288-381): direct dependencies, reverse
dependencies, then a second hop from the first-hop snapshot. -/
def findDependencyCluster (hr : HistoryReport) (targetID : String)
    (graph : List (String × List String)) (opts : RelatedWorkOptions)
    (seen : List String) : List RelatedWorkBead :=
  let cluster := match aloGet graph targetID with
    | some deps => deps.foldl (fun cl depID =>
        if depID ∈ seen then cl else aloUpd cl depID (fun _ => 1))
        ([] : List (String × ℕ))
    | none => []
  let cluster := graph.foldl (fun cl entry =>
      if entry.1 ∈ seen then cl
      else entry.2.foldl (fun cl depID =>
        if depID = targetID then
          if (aloGet cl entry.1).isSome then cl else aloUpd cl entry.1 (fun _ => 1)
        else cl) cl) cluster
  let firstHop := cluster.map (·.1)
  let cluster := firstHop.foldl (fun cl hopID =>
      match aloGet graph hopID with
      | some deps => deps.foldl (fun cl depID =>
          if depID ∉ seen ∧ depID ≠ targetID then
            if (aloGet cl depID).isSome then cl else aloUpd cl depID (fun _ => 2)
          else cl) cl
      | none => cl) cluster
  let results := cluster.foldl (fun rs kv =>
      match aloGet hr.histories kv.1 with
      | none => rs
      | some history =>
          if shouldSkipRelatedStatus history.status opts.includeClosed then rs
          else
            let relevance : ℤ := if kv.2 = 2 then 40 else 80
            let reason := if kv.2 = 2 then "Indirect dependency (2 hops)"
              else "Direct dependency"
            if relevance < opts.minRelevance then rs
            else rs ++ [⟨kv.1, history.title, history.status, "dependency_cluster",
              relevance, reason, [], []⟩]) []
  finishRelated opts results

/-- The activity window start of a history (lines 386-405 and 423-442):
the created-milestone timestamp, falling back to the first commit when
zero; zero time is the integer 0. -/
def activityStart (h : BeadHistory) : ℤ :=
  let start0 := (h.milestones.created).getD 0
  if start0 = 0 then
    match h.commits with
    | [] => start0
    | c :: _ => c.timestamp
  else start0

/-- The overlapping duration of a bead activity window clamped into the
expanded target window (lines 445-457). -/
def overlapDur (windowStart windowEnd beadStart beadEnd : ℤ) : ℤ :=
  (if windowEnd < beadEnd then windowEnd else beadEnd)
    - (if beadStart < windowStart then windowStart else beadStart)

/-- The concurrent relevance (lines 459-467): a base of 30 plus the
overlap percentage of the target duration, capped at 100. -/
def concurrentRelevance (targetDuration overlapDuration : ℤ) : ℤ :=
  if 0 < targetDuration then min (30 + overlapDuration * 50 / targetDuration) 100 else 30

/-- One history entry of findConcurrent's scan (lines 411-480). -/
def concurrentStep (now : ℤ) (opts : RelatedWorkOptions) (seen : List String)
    (windowStart windowEnd targetDuration : ℤ)
    (rs : List RelatedWorkBead) (entry : String × BeadHistory) : List RelatedWorkBead :=
  if entry.1 ∈ seen then rs
  else if shouldSkipRelatedStatus entry.2.status opts.includeClosed then rs
  else if activityStart entry.2 = 0 then rs
  else if activityStart entry.2 ≤ windowEnd
      ∧ windowStart ≤ (entry.2.milestones.closed).getD now then
    if concurrentRelevance targetDuration
        (overlapDur windowStart windowEnd (activityStart entry.2)
          ((entry.2.milestones.closed).getD now)) < opts.minRelevance then rs
    else rs ++ [⟨entry.1, entry.2.title, entry.2.status, "concurrent",
      concurrentRelevance targetDuration
        (overlapDur windowStart windowEnd (activityStart entry.2)
          ((entry.2.milestones.closed).getD now)),
      formatConcurrentReason
        (overlapDur windowStart windowEnd (activityStart entry.2)
          ((entry.2.milestones.closed).getD now)), [], []⟩]
  else rs

/-- findConcurrent (lines 384-492): the target window is
[activityStart, closed-milestone-or-now] expanded by the concurrency
window on both sides. -/
def findConcurrent (hr : HistoryReport) (now : ℤ) (target : BeadHistory)
    (opts : RelatedWorkOptions) (seen : List String) : List RelatedWorkBead :=
  if activityStart target = 0 then []
  else
    finishRelated opts (hr.histories.foldl
      (concurrentStep now opts seen (activityStart target - opts.concurrencyWindow)
        ((target.milestones.closed).getD now + opts.concurrencyWindow)
        ((target.milestones.closed).getD now - activityStart target)) [])

/-- FindRelatedWork (lines 69-137): resolve the target, collect its file
and commit sets, then run the four categories, accumulating the seen
set between them. -/
def FindRelatedWork (hr : HistoryReport) (now : ℤ) (targetID : String)
    (opts : RelatedWorkOptions) : Option RelatedWorkResult :=
  match aloGet hr.histories targetID with
  | none => none
  | some target =>
      let fl := match opts.fileLookup with
        | some fl => fl
        | none => NewFileLookup (some hr)
      let tfc := target.commits.foldl (fun (st : List String × List String) commit =>
          (commit.files.foldl (fun tf fc => appendUnique tf (normalizePath fc.path)) st.1,
           appendUnique st.2 commit.sha)) ([], [])
      let seen := [targetID]
      let fileOverlap := findFileOverlap hr tfc.1 fl opts seen
      let seen := seen ++ fileOverlap.map (·.beadID)
      let commitOverlap := findCommitOverlap hr targetID tfc.2 opts seen
      let seen := seen ++ commitOverlap.map (·.beadID)
      let depCluster := match opts.dependencyGraph with
        | some g => findDependencyCluster hr targetID g opts seen
        | none => []
      let seen := seen ++ depCluster.map (·.beadID)
      let concurrent := findConcurrent hr now target opts seen
      some ⟨targetID, target.title, fileOverlap, commitOverlap, depCluster, concurrent,
        fileOverlap.length + commitOverlap.length + depCluster.length + concurrent.length⟩

/-! ## Issue model

Modelled from the spec: the pkg/model package is not under src/ (only its
consumers are), so Issue, Dependency and the status / dependency-type
string constants follow §3 of the specification and the string encodings
visible in the loader (lower-case status strings) and in part_010's uses
of model.StatusClosed and model.DepBlocks.  Fields not consumed by the
code under verification are omitted. -/

structure Dependency where
  dependsOnID : String
  depType : String
deriving DecidableEq

structure Issue where
  id : String
  title : String
  status : String
  priority : ℤ
  dependencies : List Dependency
deriving DecidableEq

/-- Modelled from the spec: model.StatusClosed's string encoding. -/
def statusClosed : String := "closed"

/-- Modelled from the spec: model.DepBlocks, the blocking dependency
type's string encoding. -/
def depBlocks : String := "blocks"

/-! ## Graph builder: NewAnalyzer (src/pkg/analysis/graph.go, lines 37-90)

gonum's simple.DirectedGraph is embedded as a node-id list plus an edge
list; g.NewNode yields sequential ids 0,1,2,…, so the node added for the
i-th issue has id i.  simple.DirectedGraph.SetEdge panics on a self edge
and otherwise stores the edge, collapsing duplicates; the panic is
embedded as an Except error.  idToNode / nodeToID / issueMap are Go maps:
the two id maps are read pointwise and embedded as functions (later
writes win), issueMap is iterated by computeUnblocks and is embedded as
an association list updated in place. -/

structure Analyzer where
  nodes : List ℕ
  edges : List (ℕ × ℕ)
  idToNode : String → Option ℕ
  nodeToID : ℕ → Option String
  issueMap : List (String × Issue)

/-- simple.DirectedGraph.SetEdge: panics ("adding self edge") when the
endpoints coincide, otherwise inserts the edge (idempotent on
duplicates). -/
def setEdge (es : List (ℕ × ℕ)) (u v : ℕ) : Except String (List (ℕ × ℕ)) :=
  if u = v then .error "simple: adding self edge"
  else .ok (if (u, v) ∈ es then es else es ++ [(u, v)])

/-- The node phase of NewAnalyzer (lines 44-51): one fresh node per
issue, maps updated in input order. -/
def addNodes (issues : List Issue) : Analyzer :=
  (issues.foldl (fun (st : Analyzer × ℕ) issue =>
    let a := st.1
    let n := st.2
    ({ nodes := a.nodes ++ [n]
       edges := a.edges
       idToNode := fun s => if s = issue.id then some n else a.idToNode s
       nodeToID := fun m => if m = n then some issue.id else a.nodeToID m
       issueMap := aloUpd a.issueMap issue.id (fun _ => issue) }, n + 1))
    (⟨[], [], fun _ => none, fun _ => none, []⟩, 0)).1

/-- The edge phase of NewAnalyzer (lines 67-82): for every dependency of
every issue, resolve both endpoints and set the edge; unresolved targets
are skipped silently; a self edge propagates the gonum panic. -/
def addEdges (a : Analyzer) (issues : List Issue) : Except String Analyzer :=
  issues.foldlM (fun a issue =>
    match a.idToNode issue.id with
    | none => pure a
    | some u =>
        issue.dependencies.foldlM (fun (a : Analyzer) dep =>
          match a.idToNode dep.dependsOnID with
          | none => pure a
          | some v => do
              let es ← setEdge a.edges u v
              pure { a with edges := es }) a) a

/-- NewAnalyzer (lines 37-90).  The Except layer carries the gonum panic
on self edges; every other input builds the analyzer. -/
def NewAnalyzer (issues : List Issue) : Except String Analyzer :=
  addEdges (addNodes issues) issues

/-! ## computeUnblocks (src/unnamed/part_010, lines 84-125) -/

/-- The loop body's decision for one issue (lines 88-119): skip closed
issues; `hasThisBlocker` when some blocking dependency targets
`issueID`; `wouldBeBlocked` when some other blocking dependency targets
an existing non-closed issue. -/
def unblocksKeeps (issueMap : List (String × Issue)) (issueID : String) (issue : Issue) : Bool :=
  decide (issue.status ≠ statusClosed)
  && (issue.dependencies.any (fun dep =>
        decide (dep.depType = depBlocks) && decide (dep.dependsOnID = issueID)))
  && !(issue.dependencies.any (fun dep =>
        decide (dep.depType = depBlocks) && decide (dep.dependsOnID ≠ issueID)
        && (match aloGet issueMap dep.dependsOnID with
            | some blocker => decide (blocker.status ≠ statusClosed)
            | none => false)))

/-- computeUnblocks: the ids of the issues kept by the loop, sorted
ascending (sort.Strings). -/
def computeUnblocks (issueMap : List (String × Issue)) (issueID : String) : List String :=
  sortB strLe
    (((issueMap.map (·.2)).filter (fun issue => unblocksKeeps issueMap issueID issue)).map (·.id))

/-! ## Topological sort and critical-path depth
(src/pkg/analysis/graph.go, lines 162-234)

gonum's topo.Sort returns a linearization in which the source of every
edge precedes its target, or an error when the graph is cyclic.  It is
embedded as a fuel-driven Kahn-style sort; the properties proved below
(success exactly on acyclic graphs, the linearization property, and the
height bounds) are independent of which valid linearization is chosen. -/

/-- A node is ready when no remaining node has an edge into it. -/
def kahnReady (edges : List (ℕ × ℕ)) (remaining : List ℕ) (v : ℕ) : Bool :=
  !(remaining.any (fun u => decide ((u, v) ∈ edges)))

/-- Kahn-style topological sort with explicit fuel. -/
def kahn (edges : List (ℕ × ℕ)) : ℕ → List ℕ → Option (List ℕ)
  | _, [] => some []
  | 0, _ :: _ => none
  | fuel + 1, r@(_ :: _) =>
      match r.find? (kahnReady edges r) with
      | none => none
      | some v => (kahn edges fuel (r.erase v)).map (fun rest => v :: rest)

/-- topo.Sort of the analyzer's graph. -/
def topoSort (nodes : List ℕ) (edges : List (ℕ × ℕ)) : Option (List ℕ) :=
  kahn edges nodes.length nodes

/-- The inner maximum of computeHeights (graph.go lines 215-228): the
largest already-computed height among the sources of the incoming edges
of `nid`; absent entries are skipped. -/
def maxParentHeight (edges : List (ℕ × ℕ)) (hmap : ℕ → Option ℚ) (nid : ℕ) : ℚ :=
  ((edges.filter (fun e => decide (e.2 = nid))).map (·.1)).foldl
    (fun acc p =>
      match hmap p with
      | some h => if acc < h then h else acc
      | none => acc) 0

/-- One node of the computeHeights loop (lines 213-231). -/
def heightStep (edges : List (ℕ × ℕ)) (hmap : ℕ → Option ℚ) (nid : ℕ) : ℕ → Option ℚ :=
  fun x => if x = nid then some (1 + maxParentHeight edges hmap nid) else hmap x

/-- computeHeights (graph.go lines 200-234): over the topological order,
each node's height is 1 plus the maximal height among the already
processed nodes that depend on it (the sources of its incoming edges). -/
def computeHeights (edges : List (ℕ × ℕ)) (sorted : List ℕ) : ℕ → Option ℚ :=
  sorted.foldl (heightStep edges) (fun _ => none)

/-- The critical-path fragment of Analyze (lines 162-189): heights are
computed only when the topological sort succeeds; `none` models the
skipped metric (CriticalPathScore left empty). -/
def criticalScores (nodes : List ℕ) (edges : List (ℕ × ℕ)) : Option (ℕ → Option ℚ) :=
  (topoSort nodes edges).map (computeHeights edges)

/-- The edge relation of the dependency graph. -/
def edgeRel (edges : List (ℕ × ℕ)) (a b : ℕ) : Prop := (a, b) ∈ edges

/-- A directed cycle: a nonempty directed path from some node to itself. -/
def hasCycle (edges : List (ℕ × ℕ)) : Prop :=
  ∃ v, Relation.TransGen (edgeRel edges) v v

/-! ## Eigenvector centrality (src/pkg/analysis/graph.go, lines 239-293)

math.Sqrt is abstracted by the parameter `sqrtf` (the claims on this
function never reach a normalization step). -/

/-- vec value at a node's index (Go's `index` map composed with the
vector). -/
def vecAt (nodes : List ℕ) (vec : List ℚ) (nid : ℕ) : ℚ :=
  vec.getD (nodes.indexOf nid) 0

/-- One matrix-vector product over incoming edges (lines 263-273):
work[i] is the sum of vec[j] over edges j → i. -/
def eigenStep (nodes : List ℕ) (edges : List (ℕ × ℕ)) (vec : List ℚ) : List ℚ :=
  nodes.map (fun nid =>
    ((edges.filter (fun e => decide (e.2 = nid))).map (fun e => vecAt nodes vec e.1)).sum)

/-- The power iteration (lines 262-286): stop early when the product is
the zero vector (before overwriting vec), else L2-normalize and recurse. -/
def eigenLoop (sqrtf : ℚ → ℚ) (nodes : List ℕ) (edges : List (ℕ × ℕ)) :
    ℕ → List ℚ → List ℚ
  | 0, vec => vec
  | k + 1, vec =>
      let work := eigenStep nodes edges vec
      let s := (work.map (fun v => v * v)).sum
      if s = 0 then vec
      else eigenLoop sqrtf nodes edges k (work.map (fun w => w * (1 / sqrtf s)))

/-- computeEigenvector (lines 239-293): uniform start vector 1/n, 50
iterations, result keyed by node id (nil map, read as zero, when there
are no nodes). -/
def computeEigenvector (sqrtf : ℚ → ℚ) (nodes : List ℕ) (edges : List (ℕ × ℕ)) :
    ℕ → ℚ :=
  if nodes = [] then fun _ => 0
  else
    let n := nodes.length
    let vec0 := List.replicate n ((1 : ℚ) / n)
    let vec := eigenLoop sqrtf nodes edges 50 vec0
    (nodes.zip vec).foldl (fun acc kv => fun x => if x = kv.1 then kv.2 else acc x)
      (fun _ => 0)

/-! ## Betweenness (src/pkg/analysis/betweenness_approx.go)

float64 scores are modelled over ℚ.  The Elapsed / TimedOut fields are
wall-clock observations and are omitted.  Go's math/rand source is
external library state; it is modelled by a deterministic linear
congruential generator — the claims depend on the sampling being a
deterministic seeded Fisher–Yates prefix, not on the numeric stream. -/

/-- Out-neighbors of v (g.From). -/
def outNeighbors (edges : List (ℕ × ℕ)) (v : ℕ) : List ℕ :=
  (edges.filter (fun e => decide (e.1 = v))).map (·.2)

structure BrandesState where
  sigma : ℕ → ℚ
  dist : ℕ → ℤ
  pred : ℕ → List ℕ
  queue : List ℕ
  stack : List ℕ

/-- The BFS phase of singleSourceBetweenness (lines 171-192), with fuel
bounding the number of dequeues. -/
def brandesBFS (edges : List (ℕ × ℕ)) : ℕ → BrandesState → BrandesState
  | 0, st => st
  | fuel + 1, st =>
      match st.queue with
      | [] => st
      | v :: rest =>
          let st := { st with queue := rest, stack := st.stack ++ [v] }
          let st := (outNeighbors edges v).foldl (fun (st : BrandesState) w =>
            let st := if st.dist w < 0 then
                { st with dist := fun x => if x = w then st.dist v + 1 else st.dist x,
                          queue := st.queue ++ [w] }
              else st
            if st.dist w = st.dist v + 1 then
              { st with sigma := fun x => if x = w then st.sigma x + st.sigma v else st.sigma x,
                        pred := fun x => if x = w then st.pred x ++ [v] else st.pred x }
            else st) st
          brandesBFS edges fuel st

/-- The accumulation phase of singleSourceBetweenness (lines 194-211). -/
def brandesAccum (source : ℕ) (sigma : ℕ → ℚ) (pred : ℕ → List ℕ)
    (stack : List ℕ) (bc : ℕ → ℚ) : ℕ → ℚ :=
  (stack.reverse.foldl (fun (st : (ℕ → ℚ) × (ℕ → ℚ)) w =>
    if w = source then st
    else
      let delta := (pred w).foldl (fun (delta : ℕ → ℚ) v =>
        if 0 < sigma w then
          fun x => if x = v then delta x + sigma v / sigma w * (1 + delta w) else delta x
        else delta) st.1
      (delta, fun x => if x = w then st.2 x + delta w else st.2 x))
    (fun _ => 0, bc)).2

/-- singleSourceBetweenness (lines 142-211): one Brandes pass from
`source`, accumulating into `bc`. -/
def singleSourceBetweenness (nodes : List ℕ) (edges : List (ℕ × ℕ)) (source : ℕ)
    (bc : ℕ → ℚ) : ℕ → ℚ :=
  let st0 : BrandesState :=
    ⟨fun x => if x = source then 1 else 0,
     fun x => if x = source then 0 else -1,
     fun _ => [], [source], []⟩
  let st := brandesBFS edges (nodes.length + edges.length + 1) st0
  brandesAccum source st.sigma st.pred st.stack bc

/-- gonum's network.Betweenness: Brandes' exact algorithm, one
single-source pass per node. -/
def networkBetweenness (nodes : List ℕ) (edges : List (ℕ × ℕ)) : ℕ → ℚ :=
  nodes.foldl (fun bc s => singleSourceBetweenness nodes edges s bc) (fun _ => 0)

/-- Modelled stand-in for Go's math/rand: one LCG step. -/
def goRandStep (state : ℤ) : ℤ :=
  (state * 6364136223846793005 + 1442695040888963407) % (2 ^ 63)

/-- rng.Intn(bound) with explicit state. -/
def goIntn (state : ℤ) (bound : ℕ) : ℕ × ℤ :=
  let s := goRandStep state
  ((s.toNat / 2 ^ 11) % bound, s)

/-- Swap two positions of a list. -/
def listSwap (l : List ℕ) (i j : ℕ) : List ℕ :=
  let vi := l.getD i 0
  let vj := l.getD j 0
  (l.set i vj).set j vi

/-- sampleNodes (lines 118-135): identity when k covers the list, else
the first-k prefix of a seeded Fisher–Yates shuffle. -/
def sampleNodes (nodes : List ℕ) (k : ℕ) (seed : ℤ) : List ℕ :=
  if nodes.length ≤ k then nodes
  else
    ((List.range k).foldl (fun (st : List ℕ × ℤ) i =>
      let r := goIntn st.2 (st.1.length - i)
      (listSwap st.1 i (i + r.1), r.2)) (nodes, seed)).1.take k

structure BetweennessResult where
  scores : ℕ → ℚ
  mode : String
  sampleSize : ℕ
  totalNodes : ℕ

/-- Line 71: the deterministic ordering of the node ids before any
sampling (sort.Slice by node id ascending). -/
def sortedNodeIds (nodes0 : List ℕ) : List ℕ :=
  sortB (fun a b : ℕ => decide (a ≤ b)) nodes0

/-- ApproxBetweenness (lines 66-114): sort node ids ascending, use the
exact algorithm when the sample covers the graph, otherwise accumulate
single-source contributions from the sampled pivots and scale by n/k. -/
def ApproxBetweenness (nodes0 : List ℕ) (edges : List (ℕ × ℕ)) (sampleSize : ℕ)
    (seed : ℤ) : BetweennessResult :=
  let nodes := sortedNodeIds nodes0
  let n := nodes.length
  if n = 0 then ⟨fun _ => 0, "approximate", sampleSize, 0⟩
  else if n ≤ sampleSize then ⟨networkBetweenness nodes edges, "exact", n, n⟩
  else
    let pivots := sampleNodes nodes sampleSize seed
    let partialBC := pivots.foldl (fun bc p => singleSourceBetweenness nodes edges p bc)
      (fun _ => 0)
    ⟨fun id => partialBC id * ((n : ℚ) / (sampleSize : ℚ)), "approximate", sampleSize, n⟩

/-- RecommendSampleSize (lines 215-235). -/
def RecommendSampleSize (nodeCount edgeCount : ℕ) : ℕ :=
  if nodeCount < 100 then nodeCount
  else if nodeCount < 500 then
    let minSample := 50
    let sample := nodeCount / 5
    if minSample < sample then sample else minSample
  else if nodeCount < 2000 then 100
  else 200

/-! ## Concrete inputs used by witnesses and counterexamples -/

/-- A lone tombstone issue. -/
def tombIssue : Issue := ⟨"bv-1", "Removed", "tombstone", 3, []⟩

/-- An issue with a blocking dependency on itself. -/
def selfDepIssue : Issue := ⟨"bv-1", "Self-dependent", "open", 1, [⟨"bv-1", "blocks"⟩]⟩

/-- Three linear blockers: B depends on A, C depends on B. -/
def chainIssues : List Issue :=
  [⟨"A", "first", "open", 2, []⟩,
   ⟨"B", "second", "open", 2, [⟨"A", "blocks"⟩]⟩,
   ⟨"C", "third", "open", 2, [⟨"B", "blocks"⟩]⟩]

/-- A history report whose single commit lists a path twice (once in
raw form, once with a "./" prefix that normalizes away) plus a second
path. -/
def dupFilesReport : HistoryReport :=
  ⟨[("bv-1", ⟨"bv-1", "dup", "open",
      [⟨"sha1", "sha1", 100, [⟨"x", 1, 0⟩, ⟨"./x", 2, 0⟩, ⟨"y", 3, 0⟩]⟩], ⟨none, none⟩⟩)], []⟩

/-- A history report with one open bead touching main.go in one commit. -/
def demoReport : HistoryReport :=
  ⟨[("bv-1", ⟨"bv-1", "Demo", "open",
      [⟨"abc123", "abc123", 100, [⟨"main.go", 1, 0⟩]⟩], ⟨none, none⟩⟩)], []⟩

/-- A history report with a single tombstone bead touching main.go. -/
def tombReport : HistoryReport :=
  ⟨[("bv-1", ⟨"bv-1", "Removed", "tombstone",
      [⟨"abc123", "abc123", 100, [⟨"main.go", 1, 0⟩]⟩], ⟨none, none⟩⟩)], []⟩

/-- A report with a target bead T and an open bead R sharing the file
a.go through their commits. -/
def relReport : HistoryReport :=
  ⟨[("T", ⟨"T", "Target", "open",
      [⟨"c1", "c1", 100, [⟨"a.go", 1, 0⟩]⟩], ⟨none, none⟩⟩),
    ("R", ⟨"R", "Related", "open",
      [⟨"c2", "c2", 200, [⟨"a.go", 2, 0⟩]⟩], ⟨none, none⟩⟩)], []⟩

/-- The bead reference that the demo lookup returns. -/
def demoRef : BeadReference := ⟨"bv-1", "Demo", "open", ["abc123"], 100, 1⟩

/-- The file-overlap bead that FindRelatedWork discovers for relReport:
bead R shares the single target file a.go, so its relevance is 100. -/
def relBead : RelatedWorkBead :=
  ⟨"R", "Related", "open", "file_overlap", 100, "1 shared file", ["a.go"], []⟩

/-- The full FindRelatedWork result on relReport with the default
options. -/
def relResult : RelatedWorkResult :=
  ⟨"T", "Target", [relBead], [], [], [], 1⟩

/-- A two-edge chain graph on node ids: 1 depends on 0, 2 depends on 1. -/
def chainNodes : List ℕ := [0, 1, 2]

/-- The edges of the chain graph (u, v) = u depends on v. -/
def chainEdges : List (ℕ × ℕ) := [(1, 0), (2, 1)]

/-! # Lemmas and theorems -/

/-! ## Sorting -/

theorem insertB_perm {α : Type} (le : α → α → Bool) (a : α) :
    ∀ l : List α, (insertB le a l).Perm (a :: l)
  | [] => List.Perm.refl _
  | b :: bs => by
      unfold insertB
      by_cases h : le a b = true
      · simp [h]
      · simp only [h, if_false]
        exact ((insertB_perm le a bs).cons b).trans (List.Perm.swap a b bs)

theorem sortB_perm {α : Type} (le : α → α → Bool) :
    ∀ l : List α, (sortB le l).Perm l
  | [] => List.Perm.refl _
  | a :: as => by
      unfold sortB
      exact (insertB_perm le a (sortB le as)).trans ((sortB_perm le as).cons a)

theorem mem_sortB {α : Type} (le : α → α → Bool) (l : List α) (a : α) :
    a ∈ sortB le l ↔ a ∈ l :=
  (sortB_perm le l).mem_iff

theorem insertB_sorted {α : Type} (le : α → α → Bool)
    (htr : ∀ a b c, le a b = true → le b c = true → le a c = true)
    (htot : ∀ a b, le a b = true ∨ le b a = true) (a : α) :
    ∀ l : List α, l.Pairwise (fun x y => le x y = true) →
      (insertB le a l).Pairwise (fun x y => le x y = true)
  | [], _ => by simp [insertB]
  | b :: bs, hs => by
      unfold insertB
      rcases List.pairwise_cons.mp hs with ⟨hb, hbs⟩
      by_cases h : le a b = true
      · simp only [h, if_true]
        refine List.pairwise_cons.mpr ⟨?_, hs⟩
        intro x hx
        rcases List.mem_cons.mp hx with hx | hx
        · exact hx ▸ h
        · exact htr a b x h (hb x hx)
      · simp only [h, if_false]
        refine List.pairwise_cons.mpr ⟨?_, insertB_sorted le htr htot a bs hbs⟩
        intro x hx
        have hx' : x ∈ a :: bs := (insertB_perm le a bs).mem_iff.mp hx
        rcases List.mem_cons.mp hx' with hx' | hx'
        · rw [hx']
          rcases htot a b with hab | hba
          · exact absurd hab h
          · exact hba
        · exact hb x hx'

theorem sortB_sorted {α : Type} (le : α → α → Bool)
    (htr : ∀ a b c, le a b = true → le b c = true → le a c = true)
    (htot : ∀ a b, le a b = true ∨ le b a = true) :
    ∀ l : List α, (sortB le l).Pairwise (fun x y => le x y = true)
  | [] => by simp [sortB]
  | a :: as => by
      unfold sortB
      exact insertB_sorted le htr htot a (sortB le as) (sortB_sorted le htr htot as)

/-! ## The identifier order -/

theorem lexLe_total : ∀ a b : List Char, lexLe a b = true ∨ lexLe b a = true
  | [], _ => Or.inl rfl
  | _ :: _, [] => Or.inr rfl
  | a :: as, b :: bs => by
      unfold lexLe
      rcases lt_trichotomy a b with h | h | h
      · left; simp [h]
      · subst h
        simp only [lt_irrefl, if_false, if_true, if_pos rfl]
        exact lexLe_total as bs
      · right; simp [h]

theorem lexLe_trans : ∀ a b c : List Char,
    lexLe a b = true → lexLe b c = true → lexLe a c = true
  | [], _, _, _, _ => rfl
  | _ :: _, [], _, h, _ => by simp [lexLe] at h
  | _ :: _, _ :: _, [], _, h => by simp [lexLe] at h
  | a :: as, b :: bs, c :: cs, h1, h2 => by
      unfold lexLe at h1 h2 ⊢
      by_cases hab : a < b
      · by_cases hbc : b < c
        · simp [lt_trans hab hbc]
        · simp only [hbc, if_false] at h2
          by_cases hbc' : b = c
          · subst hbc'; simp [hab]
          · simp [hbc'] at h2
      · simp only [hab, if_false] at h1
        by_cases hab' : a = b
        · subst hab'
          simp only [if_pos rfl] at h1
          by_cases hbc : a < c
          · simp [hbc]
          · simp only [hbc, if_false] at h2 ⊢
            by_cases hbc' : a = c
            · simp only [hbc', if_pos rfl] at h2 ⊢
              exact lexLe_trans as bs cs h1 h2
            · simp [hbc'] at h2
        · simp [hab'] at h1

theorem strLe_total (a b : String) : strLe a b = true ∨ strLe b a = true :=
  lexLe_total a.data b.data

theorem strLe_trans (a b c : String) :
    strLe a b = true → strLe b c = true → strLe a c = true :=
  lexLe_trans a.data b.data c.data

/-! ## Association-list lemmas -/

theorem aloUpd_not_mem {ν : Type} (k : String) (f : Option ν → ν) :
    ∀ m : List (String × ν), k ∉ m.map (·.1) → aloUpd m k f = m ++ [(k, f none)]
  | [], _ => rfl
  | (k', v) :: rest, h => by
      unfold aloUpd
      have hk : k' ≠ k := by
        intro hkk
        exact h (by simp [hkk])
      simp only [hk, if_false, List.cons_append, List.cons.injEq, true_and]
      exact aloUpd_not_mem k f rest (fun hm => h (by simp [hm]))

/-- The issueMap component of addNodes is the plain fold of map writes. -/
theorem addNodes_issueMap_aux (issues : List Issue) :
    ∀ st : Analyzer × ℕ,
      ((issues.foldl (fun (st : Analyzer × ℕ) issue =>
        let a := st.1
        let n := st.2
        ({ nodes := a.nodes ++ [n]
           edges := a.edges
           idToNode := fun s => if s = issue.id then some n else a.idToNode s
           nodeToID := fun m => if m = n then some issue.id else a.nodeToID m
           issueMap := aloUpd a.issueMap issue.id (fun _ => issue) }, n + 1)) st).1).issueMap
      = issues.foldl (fun m i => aloUpd m i.id (fun _ => i)) st.1.issueMap := by
  induction issues with
  | nil => intro st; rfl
  | cons i rest ih => intro st; exact ih _

theorem addNodes_issueMap (issues : List Issue) :
    (addNodes issues).issueMap = issues.foldl (fun m i => aloUpd m i.id (fun _ => i)) [] := by
  unfold addNodes
  exact addNodes_issueMap_aux issues _

/-- With pairwise-distinct identifiers the issueMap is the issue list
itself, keyed by id. -/
theorem issueMap_of_nodup_aux :
    ∀ (issues : List Issue) (acc : List (String × Issue)),
      (issues.map Issue.id).Nodup →
      (∀ i ∈ issues, i.id ∉ acc.map (·.1)) →
      issues.foldl (fun m i => aloUpd m i.id (fun _ => i)) acc
        = acc ++ issues.map (fun i => (i.id, i))
  | [], acc, _, _ => by simp
  | i :: rest, acc, hnd, hdisj => by
      simp only [List.foldl_cons]
      rw [aloUpd_not_mem i.id _ acc (hdisj i (List.mem_cons_self i rest))]
      rw [issueMap_of_nodup_aux rest (acc ++ [(i.id, i)])
        (by simpa using (List.nodup_cons.mp (by simpa using hnd)).2)
        (by
          intro j hj
          simp only [List.map_append, List.mem_append, List.map_cons]
          rintro (hm | hm)
          · exact hdisj j (List.mem_cons_of_mem i hj) hm
          · have hji : j.id = i.id := by simpa using hm
            have : i.id ∈ rest.map Issue.id := hji ▸ List.mem_map_of_mem Issue.id hj
            exact (List.nodup_cons.mp (by simpa using hnd)).1 this)]
      simp

theorem issueMap_of_nodup (issues : List Issue) (hnd : (issues.map Issue.id).Nodup) :
    (addNodes issues).issueMap = issues.map (fun i => (i.id, i)) := by
  rw [addNodes_issueMap]
  simpa using issueMap_of_nodup_aux issues [] hnd (by simp)

theorem aloGet_map_issues (k : String) :
    ∀ issues : List Issue,
      aloGet (issues.map fun i => (i.id, i)) k = issues.find? (fun i => decide (i.id = k))
  | [] => rfl
  | i :: rest => by
      unfold aloGet
      simp only [List.map_cons, List.find?]
      by_cases h : i.id = k
      · simp [h]
      · simp only [decide_eq_true_eq, h, decide_False]
        exact aloGet_map_issues k rest

theorem find?_eq_some_of_nodup :
    ∀ (issues : List Issue), (issues.map Issue.id).Nodup →
      ∀ b ∈ issues, ∀ k, b.id = k → issues.find? (fun i => decide (i.id = k)) = some b
  | [], _, b, hb, _, _ => absurd hb (List.not_mem_nil b)
  | i :: rest, hnd, b, hb, k, hbk => by
      simp only [List.find?]
      by_cases h : i.id = k
      · simp only [h, decide_True]
        rcases List.mem_cons.mp hb with hb | hb
        · rw [hb]
        · exfalso
          have : i.id ∈ rest.map Issue.id := by
            have : b.id ∈ rest.map Issue.id := List.mem_map_of_mem Issue.id hb
            rwa [hbk, ← h] at this
          exact (List.nodup_cons.mp (by simpa using hnd)).1 this
      · simp only [decide_eq_true_eq, h, decide_False]
        rcases List.mem_cons.mp hb with hb | hb
        · exact absurd (hb ▸ hbk) h
        · exact find?_eq_some_of_nodup rest (List.nodup_cons.mp (by simpa using hnd)).2
            b hb k hbk

/-! ## C4: computeUnblocks -/

theorem blockedBit_iff (issues : List Issue) (hnd : (issues.map Issue.id).Nodup)
    (target : String) :
    (match aloGet (issues.map fun j => (j.id, j)) target with
     | some blocker => decide (blocker.status ≠ statusClosed)
     | none => false) = true
    ↔ ∃ b ∈ issues, b.id = target ∧ b.status ≠ "closed" := by
  rw [aloGet_map_issues]
  constructor
  · intro h
    rcases hf : issues.find? (fun i => decide (i.id = target)) with _ | b
    · rw [hf] at h; exact absurd h (by simp)
    · rw [hf] at h
      refine ⟨b, List.mem_of_find?_eq_some hf, ?_, ?_⟩
      · have := List.find?_some hf
        simpa using this
      · simpa [statusClosed] using h
  · rintro ⟨b, hb, hbid, hbs⟩
    rw [find?_eq_some_of_nodup issues hnd b hb target hbid]
    simpa [statusClosed] using hbs

theorem unblocksKeeps_iff (issues : List Issue) (hnd : (issues.map Issue.id).Nodup)
    (x : String) (i : Issue) :
    unblocksKeeps (issues.map fun j => (j.id, j)) x i = true ↔
      (i.status ≠ "closed"
       ∧ (∃ d ∈ i.dependencies, d.depType = "blocks" ∧ d.dependsOnID = x)
       ∧ (∀ d ∈ i.dependencies, d.depType = "blocks" → d.dependsOnID ≠ x →
            ∀ b ∈ issues, b.id = d.dependsOnID → b.status = "closed")) := by
  unfold unblocksKeeps
  simp only [Bool.and_eq_true, Bool.not_eq_true', decide_eq_true_eq, statusClosed, depBlocks,
    List.any_eq_true]
  constructor
  · rintro ⟨⟨hs, hhas⟩, hblk⟩
    refine ⟨hs, ?_, ?_⟩
    · rcases hhas with ⟨d, hd, hdt⟩
      exact ⟨d, hd, by simpa using hdt⟩
    · intro d hd hdt hdx b hb hbid
      by_contra hbs
      rw [List.any_eq_false] at hblk
      refine hblk d hd ?_
      simp only [Bool.and_eq_true, decide_eq_true_eq]
      refine ⟨⟨hdt, hdx⟩, ?_⟩
      have := (blockedBit_iff issues hnd d.dependsOnID).mpr ⟨b, hb, hbid, hbs⟩
      simpa [statusClosed] using this
  · rintro ⟨hs, ⟨d, hd, hdt, hdx⟩, hnb⟩
    refine ⟨⟨hs, ⟨d, hd, by simp [hdt, hdx]⟩⟩, ?_⟩
    rw [List.any_eq_false]
    intro d' hd'
    intro hconj
    rw [Bool.and_eq_true, Bool.and_eq_true] at hconj
    rcases hconj with ⟨⟨hdt', hdx'⟩, hmatch⟩
    have hmatch' : (match aloGet (issues.map fun j => (j.id, j)) d'.dependsOnID with
        | some blocker => decide (blocker.status ≠ statusClosed)
        | none => false) = true := by
      simpa [statusClosed] using hmatch
    rcases (blockedBit_iff issues hnd d'.dependsOnID).mp hmatch' with ⟨b, hb, hbid, hbs⟩
    exact hbs (hnb d' hd' (by simpa using hdt') (by simpa using hdx') b hb hbid)

/-- Claim C4: for every issue set with unique identifiers and every
issue X, computeUnblocks returns exactly the identifiers of the
non-closed issues that have a blocking dependency on X and no other
blocking dependency on a different existing non-closed issue, sorted
ascending by identifier. -/
theorem computeUnblocks_matches_claim (issues : List Issue) (x : String)
    (hnd : (issues.map Issue.id).Nodup) :
    (∀ idv, idv ∈ computeUnblocks (addNodes issues).issueMap x ↔
      ∃ i ∈ issues, i.id = idv ∧
        i.status ≠ "closed" ∧
        (∃ d ∈ i.dependencies, d.depType = "blocks" ∧ d.dependsOnID = x) ∧
        (∀ d ∈ i.dependencies, d.depType = "blocks" → d.dependsOnID ≠ x →
          ∀ b ∈ issues, b.id = d.dependsOnID → b.status = "closed"))
    ∧ (computeUnblocks (addNodes issues).issueMap x).Pairwise
        (fun a b => strLe a b = true) := by
  rw [issueMap_of_nodup issues hnd]
  constructor
  · intro idv
    unfold computeUnblocks
    rw [mem_sortB]
    have hvals : ((issues.map fun i => (i.id, i)).map (·.2)) = issues := by
      rw [List.map_map]
      exact List.map_id'' (fun _ => rfl) issues
    rw [hvals]
    rw [List.mem_map]
    constructor
    · rintro ⟨i, hi, hid⟩
      rcases List.mem_filter.mp hi with ⟨hi', hkeep⟩
      exact ⟨i, hi', hid, (unblocksKeeps_iff issues hnd x i).mp hkeep⟩
    · rintro ⟨i, hi, hid, hspec⟩
      exact ⟨i, List.mem_filter.mpr ⟨hi, (unblocksKeeps_iff issues hnd x i).mpr hspec⟩, hid⟩
  · exact sortB_sorted strLe strLe_trans strLe_total _

/-- Witness for C4 on the three-issue chain: closing A unblocks B. -/
theorem computeUnblocks_matches_claim_witness :
    "B" ∈ computeUnblocks (addNodes chainIssues).issueMap "A" := by
  have h := computeUnblocks_matches_claim chainIssues "A" (by decide)
  refine (h.1 "B").mpr ⟨⟨"B", "second", "open", 2, [⟨"A", "blocks"⟩]⟩, by decide, rfl, ?_, ?_⟩
  · exact by decide
  · exact by decide

/-! ## C2: self-loop handling in NewAnalyzer -/

/-- Claim C2 (code evaluated at the failing input): an issue with a
blocking dependency on itself makes NewAnalyzer propagate gonum's
self-edge panic, aborting graph construction - the self-loop is not
dropped and no warning counter exists. -/
theorem newAnalyzer_selfLoop_aborts :
    selfDepIssue.dependencies = [⟨selfDepIssue.id, "blocks"⟩]
    ∧ NewAnalyzer [selfDepIssue] = .error "simple: adding self edge" :=
  ⟨rfl, rfl⟩

/-! ## C1: tombstone exclusion -/

/-- Counterexample to C1, refuting two of its clauses.  Graph: a
tombstone-status issue does receive a node in the dependency graph -
NewAnalyzer (graph.go lines 44-51) adds a node for every issue without
inspecting its status.  Hotspots: GetHotspots (part_009 lines 316-368)
counts a bead as open whenever its live status differs from "closed",
so a file touched only by a tombstone bead is reported as a hotspot
with one open bead - the tombstone is not excluded. -/
theorem tombstone_in_graph_and_hotspots :
    tombIssue.status = "tombstone"
    ∧ (NewAnalyzer [tombIssue]).map (fun a => (a.nodes, a.idToNode tombIssue.id))
        = .ok ([0], some 0)
    ∧ (aloGet tombReport.histories "bv-1").map (·.status) = some "tombstone"
    ∧ GetHotspots (NewFileLookup (some tombReport)) 10 = [⟨"main.go", 1, 1, 0⟩] :=
  ⟨rfl, rfl, by decide, by decide⟩

theorem classify_skip_iff (s : String) :
    (classifyBeadStatus s).2 = false ↔ statusKey s ≠ "tombstone" := by
  unfold classifyBeadStatus
  by_cases h : statusKey s = "tombstone"
  · simp [h]
  · by_cases h2 : statusKey s = "closed" <;> simp [h, h2]

theorem refreshRef_status (beads : List (String × BeadHistory)) (r : BeadReference) :
    (refreshRef beads r).1.status = (refreshRef beads r).2 := by
  unfold refreshRef
  cases aloGet beads r.beadID <;> rfl

theorem lookupStepExact_inv (beads : List (String × BeadHistory))
    (acc : List BeadReference × List BeadReference) (r0 : BeadReference)
    (h1 : ∀ r ∈ acc.1, statusKey r.status ≠ "tombstone")
    (h2 : ∀ r ∈ acc.2, statusKey r.status ≠ "tombstone") :
    (∀ r ∈ (lookupStepExact beads acc r0).1, statusKey r.status ≠ "tombstone")
    ∧ (∀ r ∈ (lookupStepExact beads acc r0).2, statusKey r.status ≠ "tombstone") := by
  unfold lookupStepExact
  have hnew : (classifyBeadStatus (refreshRef beads r0).2).2 = false →
      statusKey (refreshRef beads r0).1.status ≠ "tombstone" := by
    rw [refreshRef_status]
    exact (classify_skip_iff _).mp
  by_cases hskip : (classifyBeadStatus (refreshRef beads r0).2).2 = true
  · simp only [hskip, if_true]
    exact ⟨h1, h2⟩
  · rw [Bool.not_eq_true] at hskip
    simp only [hskip, Bool.false_eq_true, if_false]
    by_cases hcl : (classifyBeadStatus (refreshRef beads r0).2).1 = "closed"
    · simp only [hcl, if_true]
      refine ⟨h1, ?_⟩
      intro r hr
      rcases List.mem_append.mp hr with hr | hr
      · exact h2 r hr
      · rw [List.mem_singleton.mp hr]
        exact hnew hskip
    · simp only [hcl, if_false]
      refine ⟨?_, h2⟩
      intro r hr
      rcases List.mem_append.mp hr with hr | hr
      · exact h1 r hr
      · rw [List.mem_singleton.mp hr]
        exact hnew hskip

theorem lookupStepDedup_inv (beads : List (String × BeadHistory))
    (acc : List BeadReference × List BeadReference) (r0 : BeadReference)
    (h1 : ∀ r ∈ acc.1, statusKey r.status ≠ "tombstone")
    (h2 : ∀ r ∈ acc.2, statusKey r.status ≠ "tombstone") :
    (∀ r ∈ (lookupStepDedup beads acc r0).1, statusKey r.status ≠ "tombstone")
    ∧ (∀ r ∈ (lookupStepDedup beads acc r0).2, statusKey r.status ≠ "tombstone") := by
  unfold lookupStepDedup
  have hnew : (classifyBeadStatus (refreshRef beads r0).2).2 = false →
      statusKey (refreshRef beads r0).1.status ≠ "tombstone" := by
    rw [refreshRef_status]
    exact (classify_skip_iff _).mp
  by_cases hskip : (classifyBeadStatus (refreshRef beads r0).2).2 = true
  · simp only [hskip, if_true]
    exact ⟨h1, h2⟩
  · rw [Bool.not_eq_true] at hskip
    simp only [hskip, Bool.false_eq_true, if_false]
    by_cases hcl : (classifyBeadStatus (refreshRef beads r0).2).1 = "closed"
    · simp only [hcl, if_true]
      by_cases hdup : containsBeadRef acc.2 (refreshRef beads r0).1.beadID = true
      · simp only [hdup, if_true]
        exact ⟨h1, h2⟩
      · rw [Bool.not_eq_true] at hdup
        simp only [hdup, Bool.false_eq_true, if_false]
        refine ⟨h1, ?_⟩
        intro r hr
        rcases List.mem_append.mp hr with hr | hr
        · exact h2 r hr
        · rw [List.mem_singleton.mp hr]
          exact hnew hskip
    · simp only [hcl, if_false]
      by_cases hdup : containsBeadRef acc.1 (refreshRef beads r0).1.beadID = true
      · simp only [hdup, if_true]
        exact ⟨h1, h2⟩
      · rw [Bool.not_eq_true] at hdup
        simp only [hdup, Bool.false_eq_true, if_false]
        refine ⟨?_, h2⟩
        intro r hr
        rcases List.mem_append.mp hr with hr | hr
        · exact h1 r hr
        · rw [List.mem_singleton.mp hr]
          exact hnew hskip

theorem lookupFoldExact_inv (beads : List (String × BeadHistory)) :
    ∀ (refs : List BeadReference) (acc : List BeadReference × List BeadReference),
      (∀ r ∈ acc.1, statusKey r.status ≠ "tombstone") →
      (∀ r ∈ acc.2, statusKey r.status ≠ "tombstone") →
      (∀ r ∈ (refs.foldl (lookupStepExact beads) acc).1, statusKey r.status ≠ "tombstone")
      ∧ (∀ r ∈ (refs.foldl (lookupStepExact beads) acc).2, statusKey r.status ≠ "tombstone")
  | [], acc, h1, h2 => ⟨h1, h2⟩
  | r0 :: rest, acc, h1, h2 => by
      simp only [List.foldl_cons]
      have h := lookupStepExact_inv beads acc r0 h1 h2
      exact lookupFoldExact_inv beads rest _ h.1 h.2

theorem lookupFoldDedup_inv (beads : List (String × BeadHistory)) :
    ∀ (refs : List BeadReference) (acc : List BeadReference × List BeadReference),
      (∀ r ∈ acc.1, statusKey r.status ≠ "tombstone") →
      (∀ r ∈ acc.2, statusKey r.status ≠ "tombstone") →
      (∀ r ∈ (refs.foldl (lookupStepDedup beads) acc).1, statusKey r.status ≠ "tombstone")
      ∧ (∀ r ∈ (refs.foldl (lookupStepDedup beads) acc).2, statusKey r.status ≠ "tombstone")
  | [], acc, h1, h2 => ⟨h1, h2⟩
  | r0 :: rest, acc, h1, h2 => by
      simp only [List.foldl_cons]
      have h := lookupStepDedup_inv beads acc r0 h1 h2
      exact lookupFoldDedup_inv beads rest _ h.1 h.2

theorem lookupDirFold_inv (beads : List (String × BeadHistory)) (np : String) :
    ∀ (idx : List (String × List BeadReference))
      (acc : List BeadReference × List BeadReference),
      (∀ r ∈ acc.1, statusKey r.status ≠ "tombstone") →
      (∀ r ∈ acc.2, statusKey r.status ≠ "tombstone") →
      (∀ r ∈ (idx.foldl (lookupDirStep beads np) acc).1, statusKey r.status ≠ "tombstone")
      ∧ (∀ r ∈ (idx.foldl (lookupDirStep beads np) acc).2, statusKey r.status ≠ "tombstone")
  | [], acc, h1, h2 => ⟨h1, h2⟩
  | fp :: rest, acc, h1, h2 => by
      simp only [List.foldl_cons]
      have h : (∀ r ∈ (lookupDirStep beads np acc fp).1, statusKey r.status ≠ "tombstone")
          ∧ (∀ r ∈ (lookupDirStep beads np acc fp).2, statusKey r.status ≠ "tombstone") := by
        unfold lookupDirStep
        by_cases hpre : leadMatch (np ++ "/").data fp.1.data = true
        · simp only [hpre, if_true]
          exact lookupFoldDedup_inv beads fp.2 acc h1 h2
        · rw [Bool.not_eq_true] at hpre
          simp only [hpre, Bool.false_eq_true, if_false]
          exact ⟨h1, h2⟩
      exact lookupDirFold_inv beads np rest _ h.1 h.2

/-- Every reference returned by a file-index lookup - open or closed
bucket, exact or directory branch - has a live status whose normalized
form is not tombstone. -/
theorem lookupByFile_excludes_tombstones (fl : FileLookup) (path : String)
    (ref : BeadReference)
    (h : ref ∈ (LookupByFile fl path).openBeads
       ∨ ref ∈ (LookupByFile fl path).closedBeads) :
    statusKey ref.status ≠ "tombstone" := by
  unfold LookupByFile at h
  rcases hget : aloGet fl.index (normalizePath path) with _ | refs
  · simp only [hget, sortBeadRefs] at h
    have hinv := lookupDirFold_inv fl.beads (normalizePath path) fl.index ([], [])
      (by intro r hr; exact absurd hr (List.not_mem_nil r))
      (by intro r hr; exact absurd hr (List.not_mem_nil r))
    rcases h with h | h
    · exact hinv.1 ref ((mem_sortB beadRefLe _ ref).mp h)
    · exact hinv.2 ref ((mem_sortB beadRefLe _ ref).mp h)
  · simp only [hget, sortBeadRefs] at h
    have hinv := lookupFoldExact_inv fl.beads refs ([], [])
      (by intro r hr; exact absurd hr (List.not_mem_nil r))
      (by intro r hr; exact absurd hr (List.not_mem_nil r))
    rcases h with h | h
    · exact hinv.1 ref ((mem_sortB beadRefLe _ ref).mp h)
    · exact hinv.2 ref ((mem_sortB beadRefLe _ ref).mp h)

/-- foldl preserves an invariant provided every step does. -/
theorem foldl_keeps {α β : Type} (P : β → Prop) (step : β → α → β) :
    ∀ (l : List α), (∀ st a, a ∈ l → P st → P (step st a)) →
      ∀ st, P st → P (l.foldl step st)
  | [], _, _, hP => hP
  | a :: l, hstep, st, hP => by
      rw [List.foldl_cons]
      exact foldl_keeps P step l
        (fun st' a' ha' => hstep st' a' (List.mem_cons_of_mem a ha'))
        _ (hstep st a (List.mem_cons_self a l) hP)

/-- aloUpd preserves a value invariant when the update function does. -/
theorem aloUpd_vals {ν : Type} (P : ν → Prop) (k : String) (f : Option ν → ν) :
    ∀ (m : List (String × ν)), (∀ kv ∈ m, P kv.2) →
      (∀ v0 : Option ν, (∀ v, v0 = some v → P v) → P (f v0)) →
      ∀ kv ∈ aloUpd m k f, P kv.2
  | [], _, hf, kv, hkv => by
      unfold aloUpd at hkv
      rw [List.mem_singleton.mp hkv]
      exact hf none (fun v hv => by cases hv)
  | (k', v) :: rest, hm, hf, kv, hkv => by
      unfold aloUpd at hkv
      by_cases hk : k' = k
      · rw [if_pos hk] at hkv
        rcases List.mem_cons.mp hkv with h | h
        · rw [h]
          exact hf (some v)
            (fun v' hv' => by cases hv'; exact hm (k', v) (List.mem_cons_self _ _))
        · exact hm kv (List.mem_cons_of_mem _ h)
      · rw [if_neg hk] at hkv
        rcases List.mem_cons.mp hkv with h | h
        · rw [h]
          exact hm (k', v) (List.mem_cons_self _ _)
        · exact aloUpd_vals P k f rest
            (fun kv' hkv' => hm kv' (List.mem_cons_of_mem _ hkv')) hf kv h

/-- absorbRef keeps the status of the existing entry, or takes the
reference's status when the entry is fresh. -/
theorem absorbRef_status (ab0 : Option AffectedBead) (ref : BeadReference) (fp : String) :
    (absorbRef ab0 ref fp).status
      = (match ab0 with | none => ref.status | some ab => ab.status) := by
  unfold absorbRef
  cases ab0 <;> dsimp only <;> split <;> rfl

/-- One file of the impact-analysis bead-map fold preserves the
no-tombstone invariant: every reference it absorbs came from a
LookupByFile bucket. -/
theorem impactStep_keeps (fl : FileLookup) (now : ℤ)
    (bm : List (String × AffectedBead)) (filePath : String)
    (h : ∀ kv ∈ bm, statusKey kv.2.status ≠ "tombstone") :
    ∀ kv ∈ (LookupByFile fl filePath).closedBeads.foldl (fun bm ref =>
        if 604800 < now - ref.lastTouch then bm
        else aloUpd bm ref.beadID (fun ab0 => absorbRef ab0 ref filePath))
      ((LookupByFile fl filePath).openBeads.foldl (fun bm ref =>
        aloUpd bm ref.beadID (fun ab0 => absorbRef ab0 ref filePath)) bm),
      statusKey kv.2.status ≠ "tombstone" := by
  refine foldl_keeps
    (fun bm : List (String × AffectedBead) => ∀ kv ∈ bm, statusKey kv.2.status ≠ "tombstone")
    _ _ ?_ _ ?_
  · intro bm' ref href hbm'
    dsimp only
    split
    · exact hbm'
    · refine aloUpd_vals
        (fun ab : AffectedBead => statusKey ab.status ≠ "tombstone") _ _ bm' hbm' ?_
      intro v0 hv0
      have hs := absorbRef_status v0 ref filePath
      cases v0 with
      | none =>
          rw [hs]
          exact lookupByFile_excludes_tombstones fl filePath ref (Or.inr href)
      | some ab =>
          rw [hs]
          exact hv0 ab rfl
  · refine foldl_keeps
      (fun bm : List (String × AffectedBead) => ∀ kv ∈ bm, statusKey kv.2.status ≠ "tombstone")
      _ _ ?_ _ h
    intro bm' ref href hbm'
    refine aloUpd_vals
      (fun ab : AffectedBead => statusKey ab.status ≠ "tombstone") _ _ bm' hbm' ?_
    intro v0 hv0
    have hs := absorbRef_status v0 ref filePath
    cases v0 with
    | none =>
        rw [hs]
        exact lookupByFile_excludes_tombstones fl filePath ref (Or.inl href)
    | some ab =>
        rw [hs]
        exact hv0 ab rfl

/-- The impact-analysis bead map carries no tombstone bead. -/
theorem impactBeadMap_no_tombstone (fl : FileLookup) (now : ℤ) (nf : List String) :
    ∀ kv ∈ nf.foldl (fun bm filePath =>
        (LookupByFile fl filePath).closedBeads.foldl (fun bm ref =>
          if 604800 < now - ref.lastTouch then bm
          else aloUpd bm ref.beadID (fun ab0 => absorbRef ab0 ref filePath))
        ((LookupByFile fl filePath).openBeads.foldl (fun bm ref =>
          aloUpd bm ref.beadID (fun ab0 => absorbRef ab0 ref filePath)) bm))
      ([] : List (String × AffectedBead)),
      statusKey kv.2.status ≠ "tombstone" := by
  refine foldl_keeps
    (fun bm : List (String × AffectedBead) => ∀ kv ∈ bm, statusKey kv.2.status ≠ "tombstone")
    _ _ ?_ _ ?_
  · intro bm fp _ h
    exact impactStep_keeps fl now bm fp h
  · intro kv hkv
    exact absurd hkv (List.not_mem_nil kv)

/-- Every affected bead reported by impactCore has a non-tombstone
status. -/
theorem impactCore_no_tombstone (fl : FileLookup) (now : ℤ) (nf : List String) :
    ∀ ab ∈ (impactCore fl now nf).affectedBeads, statusKey ab.status ≠ "tombstone" := by
  intro ab hab
  unfold impactCore at hab
  dsimp only at hab
  have hab' := (mem_sortB affectedLe _ ab).mp hab
  refine foldl_keeps
    (fun st : List AffectedBead × ℕ × ℕ × ℕ => ∀ x ∈ st.1, statusKey x.status ≠ "tombstone")
    _ _ ?_ _ ?_ ab hab'
  · intro st kv hkv hst
    dsimp only
    intro x hx
    rcases List.mem_append.mp hx with hx | hx
    · exact hst x hx
    · rw [List.mem_singleton.mp hx]
      exact impactBeadMap_no_tombstone fl now nf kv hkv
  · intro x hx
    exact absurd hx (List.not_mem_nil x)

/-- Every affected bead reported by ImpactAnalysis has a non-tombstone
status. -/
theorem impactAnalysis_no_tombstone (fl : FileLookup) (now : ℤ) (files : List String) :
    ∀ ab ∈ (ImpactAnalysis fl now files).affectedBeads, statusKey ab.status ≠ "tombstone" := by
  intro ab hab
  unfold ImpactAnalysis at hab
  by_cases h0 : files = []
  · rw [if_pos h0] at hab
    exact absurd hab (List.not_mem_nil ab)
  · rw [if_neg h0] at hab
    dsimp only at hab
    by_cases h1 : normalizeImpactFiles files = []
    · rw [if_pos h1] at hab
      exact absurd hab (List.not_mem_nil ab)
    · rw [if_neg h1] at hab
      exact impactCore_no_tombstone fl now _ ab hab

/-- A status that survives shouldSkipRelatedStatus cannot normalize to
tombstone. -/
theorem not_tombstone_of_no_skip (status : String) (ic : Bool)
    (h : ¬ shouldSkipRelatedStatus status ic = true) : statusKey status ≠ "tombstone" := by
  intro hc
  apply h
  unfold shouldSkipRelatedStatus
  rw [if_pos hc]

/-- The sort-and-truncate tail of each category preserves the
no-tombstone invariant. -/
theorem finishRelated_no_tombstone (opts : RelatedWorkOptions)
    (results : List RelatedWorkBead)
    (h : ∀ rb ∈ results, statusKey rb.status ≠ "tombstone") :
    ∀ rb ∈ finishRelated opts results, statusKey rb.status ≠ "tombstone" := by
  intro rb hrb
  unfold finishRelated at hrb
  dsimp only at hrb
  split at hrb
  · exact h rb ((mem_sortB relatedLe _ rb).mp (List.take_subset _ _ hrb))
  · exact h rb ((mem_sortB relatedLe _ rb).mp hrb)

/-- No file-overlap candidate has a tombstone status. -/
theorem findFileOverlap_no_tombstone (hr : HistoryReport) (tf : List String)
    (fl : FileLookup) (opts : RelatedWorkOptions) (seen : List String) :
    ∀ rb ∈ findFileOverlap hr tf fl opts seen, statusKey rb.status ≠ "tombstone" := by
  unfold findFileOverlap
  split
  · intro rb hrb
    exact absurd hrb (List.not_mem_nil rb)
  · dsimp only
    refine finishRelated_no_tombstone opts _ ?_
    refine foldl_keeps
      (fun rs : List RelatedWorkBead => ∀ rb ∈ rs, statusKey rb.status ≠ "tombstone")
      _ _ ?_ _ ?_
    · intro rs kv _ hrs
      dsimp only
      cases hg : aloGet hr.histories kv.1 with
      | none => exact hrs
      | some history =>
          dsimp only
          by_cases hskip : shouldSkipRelatedStatus history.status opts.includeClosed = true
          · rw [if_pos hskip]
            exact hrs
          · rw [if_neg hskip]
            split
            · exact hrs
            · intro rb hrb
              rcases List.mem_append.mp hrb with h | h
              · exact hrs rb h
              · rw [List.mem_singleton.mp h]
                exact not_tombstone_of_no_skip history.status opts.includeClosed hskip
    · intro rb hrb
      exact absurd hrb (List.not_mem_nil rb)

/-- No commit-overlap candidate has a tombstone status. -/
theorem findCommitOverlap_no_tombstone (hr : HistoryReport) (targetID : String)
    (tc : List String) (opts : RelatedWorkOptions) (seen : List String) :
    ∀ rb ∈ findCommitOverlap hr targetID tc opts seen,
      statusKey rb.status ≠ "tombstone" := by
  unfold findCommitOverlap
  split
  · intro rb hrb
    exact absurd hrb (List.not_mem_nil rb)
  · dsimp only
    refine finishRelated_no_tombstone opts _ ?_
    refine foldl_keeps
      (fun rs : List RelatedWorkBead => ∀ rb ∈ rs, statusKey rb.status ≠ "tombstone")
      _ _ ?_ _ ?_
    · intro rs kv _ hrs
      dsimp only
      cases hg : aloGet hr.histories kv.1 with
      | none => exact hrs
      | some history =>
          dsimp only
          by_cases hskip : shouldSkipRelatedStatus history.status opts.includeClosed = true
          · rw [if_pos hskip]
            exact hrs
          · rw [if_neg hskip]
            split
            · exact hrs
            · intro rb hrb
              rcases List.mem_append.mp hrb with h | h
              · exact hrs rb h
              · rw [List.mem_singleton.mp h]
                exact not_tombstone_of_no_skip history.status opts.includeClosed hskip
    · intro rb hrb
      exact absurd hrb (List.not_mem_nil rb)

/-- No dependency-cluster candidate has a tombstone status. -/
theorem findDependencyCluster_no_tombstone (hr : HistoryReport) (targetID : String)
    (graph : List (String × List String)) (opts : RelatedWorkOptions)
    (seen : List String) :
    ∀ rb ∈ findDependencyCluster hr targetID graph opts seen,
      statusKey rb.status ≠ "tombstone" := by
  unfold findDependencyCluster
  dsimp only
  refine finishRelated_no_tombstone opts _ ?_
  refine foldl_keeps
    (fun rs : List RelatedWorkBead => ∀ rb ∈ rs, statusKey rb.status ≠ "tombstone")
    _ _ ?_ _ ?_
  · intro rs kv _ hrs
    dsimp only
    cases hg : aloGet hr.histories kv.1 with
    | none => exact hrs
    | some history =>
        dsimp only
        by_cases hskip : shouldSkipRelatedStatus history.status opts.includeClosed = true
        · rw [if_pos hskip]
          exact hrs
        · rw [if_neg hskip]
          split
          · split
            · exact hrs
            · intro rb hrb
              rcases List.mem_append.mp hrb with h | h
              · exact hrs rb h
              · rw [List.mem_singleton.mp h]
                exact not_tombstone_of_no_skip history.status opts.includeClosed hskip
          · split
            · exact hrs
            · intro rb hrb
              rcases List.mem_append.mp hrb with h | h
              · exact hrs rb h
              · rw [List.mem_singleton.mp h]
                exact not_tombstone_of_no_skip history.status opts.includeClosed hskip
  · intro rb hrb
    exact absurd hrb (List.not_mem_nil rb)

/-- One concurrent scan step preserves the no-tombstone invariant. -/
theorem concurrentStep_keeps (now : ℤ) (opts : RelatedWorkOptions) (seen : List String)
    (ws we td : ℤ) (rs : List RelatedWorkBead) (entry : String × BeadHistory)
    (hrs : ∀ rb ∈ rs, statusKey rb.status ≠ "tombstone") :
    ∀ rb ∈ concurrentStep now opts seen ws we td rs entry,
      statusKey rb.status ≠ "tombstone" := by
  unfold concurrentStep
  split
  · exact hrs
  · by_cases hskip : shouldSkipRelatedStatus entry.2.status opts.includeClosed = true
    · rw [if_pos hskip]
      exact hrs
    · rw [if_neg hskip]
      split
      · exact hrs
      · split
        · split
          · exact hrs
          · intro rb hrb
            rcases List.mem_append.mp hrb with h | h
            · exact hrs rb h
            · rw [List.mem_singleton.mp h]
              exact not_tombstone_of_no_skip entry.2.status opts.includeClosed hskip
        · exact hrs

/-- No concurrent-activity candidate has a tombstone status. -/
theorem findConcurrent_no_tombstone (hr : HistoryReport) (now : ℤ)
    (target : BeadHistory) (opts : RelatedWorkOptions) (seen : List String) :
    ∀ rb ∈ findConcurrent hr now target opts seen,
      statusKey rb.status ≠ "tombstone" := by
  unfold findConcurrent
  split
  · intro rb hrb
    exact absurd hrb (List.not_mem_nil rb)
  · refine finishRelated_no_tombstone opts _ ?_
    refine foldl_keeps
      (fun rs : List RelatedWorkBead => ∀ rb ∈ rs, statusKey rb.status ≠ "tombstone")
      _ _ ?_ _ ?_
    · intro rs entry _ hrs
      exact concurrentStep_keeps now opts seen _ _ _ rs entry hrs
    · intro rb hrb
      exact absurd hrb (List.not_mem_nil rb)

/-- No bead in any category of a FindRelatedWork result has a tombstone
status. -/
theorem findRelatedWork_no_tombstone (hr : HistoryReport) (now : ℤ) (targetID : String)
    (opts : RelatedWorkOptions) (res : RelatedWorkResult)
    (h : FindRelatedWork hr now targetID opts = some res) :
    ∀ rb, (rb ∈ res.fileOverlap ∨ rb ∈ res.commitOverlap
      ∨ rb ∈ res.dependencyCluster ∨ rb ∈ res.concurrent) →
      statusKey rb.status ≠ "tombstone" := by
  unfold FindRelatedWork at h
  cases hg : aloGet hr.histories targetID with
  | none =>
      rw [hg] at h
      exact Option.noConfusion h
  | some target =>
      rw [hg] at h
      dsimp only at h
      have hres := Option.some_inj.mp h
      intro rb hrb
      rw [← hres] at hrb
      dsimp only at hrb
      rcases hrb with h1 | h1 | h1 | h1
      · exact findFileOverlap_no_tombstone _ _ _ _ _ rb h1
      · exact findCommitOverlap_no_tombstone _ _ _ _ _ rb h1
      · rcases hdg : opts.dependencyGraph with _ | g
        · rw [hdg] at h1
          exact absurd h1 (List.not_mem_nil rb)
        · rw [hdg] at h1
          exact findDependencyCluster_no_tombstone _ _ _ _ _ rb h1
      · exact findConcurrent_no_tombstone _ _ _ _ _ rb h1

/-- Claim C1 (amended): tombstone issues are not excluded everywhere.
They do get a node in the dependency graph, and GetHotspots counts them
as open beads (see the counterexample).  The remaining output
collections do exclude them: every reference in a LookupByFile open or
closed list, every affected bead of ImpactAnalysis, and every bead in
each of the four FindRelatedWork categories has a status that does not
normalize to tombstone. -/
theorem tombstones_excluded_from_output_sets :
    (∀ (fl : FileLookup) (path : String) (ref : BeadReference),
        (ref ∈ (LookupByFile fl path).openBeads ∨ ref ∈ (LookupByFile fl path).closedBeads) →
        statusKey ref.status ≠ "tombstone")
    ∧ (∀ (fl : FileLookup) (now : ℤ) (files : List String),
        ∀ ab ∈ (ImpactAnalysis fl now files).affectedBeads,
          statusKey ab.status ≠ "tombstone")
    ∧ (∀ (hr : HistoryReport) (now : ℤ) (targetID : String) (opts : RelatedWorkOptions)
        (res : RelatedWorkResult), FindRelatedWork hr now targetID opts = some res →
        ∀ rb, (rb ∈ res.fileOverlap ∨ rb ∈ res.commitOverlap
          ∨ rb ∈ res.dependencyCluster ∨ rb ∈ res.concurrent) →
        statusKey rb.status ≠ "tombstone") :=
  ⟨fun fl path ref h => lookupByFile_excludes_tombstones fl path ref h,
   fun fl now files => impactAnalysis_no_tombstone fl now files,
   fun hr now targetID opts res h => findRelatedWork_no_tombstone hr now targetID opts res h⟩

/-- Witness for the amended C1: the demo lookup has a non-empty open
bucket and the theorem's lookup clause applies to its member; the
relReport discovery returns bead R in the file-overlap category and the
related-work clause applies to it. -/
theorem tombstones_excluded_from_output_sets_witness :
    (demoRef ∈ (LookupByFile (NewFileLookup (some demoReport)) "main.go").openBeads
      ∧ statusKey demoRef.status ≠ "tombstone")
    ∧ (FindRelatedWork relReport 1000 "T" DefaultRelatedWorkOptions = some relResult
      ∧ relBead ∈ relResult.fileOverlap
      ∧ statusKey relBead.status ≠ "tombstone") :=
  ⟨⟨by decide,
    tombstones_excluded_from_output_sets.1 (NewFileLookup (some demoReport)) "main.go"
      demoRef (Or.inl (by decide))⟩,
   ⟨by decide, by decide,
    tombstones_excluded_from_output_sets.2.2 relReport 1000 "T" DefaultRelatedWorkOptions
      relResult (by decide) relBead (Or.inl (by decide))⟩⟩

/-! ## C8: path normalization -/

/-- Counterexample to C8: normalizePath does not collapse repeated
separators - a path with a doubled separator keeps it and differs from
the single-separator form. -/
theorem normalizePath_keeps_doubled_separators :
    normalizePath "a//b" = "a//b" ∧ normalizePath "a/b" = "a/b"
    ∧ normalizePath "a//b" ≠ normalizePath "a/b" :=
  ⟨by decide, by decide, by decide⟩

/-- Claim C8 (amended): normalizePath converts back-slashes to forward
slashes, strips one leading "./" and one trailing "/", and leaves
repeated separators unchanged. -/
theorem normalizePath_amended :
    (∀ p : String, normalizePath ("./" ++ p ++ "/") = mapSlash p)
    ∧ normalizePath "a//b" = "a//b" := by
  constructor
  · intro p
    unfold normalizePath mapSlash
    have hdata : ("./" ++ p ++ "/").data = '.' :: '/' :: (p.data ++ ['/']) := by
      rw [String.data_append, String.data_append]
      rfl
    rw [hdata]
    have hmap : ('.' :: '/' :: (p.data ++ ['/'])).map slashify
        = '.' :: '/' :: (p.data.map slashify ++ ['/']) := by
      simp [slashify]
    rw [hmap]
    have hlead : trimLead ['.', '/'] ('.' :: '/' :: (p.data.map slashify ++ ['/']))
        = p.data.map slashify ++ ['/'] := by
      unfold trimLead
      simp [leadMatch]
    rw [hlead]
    unfold trimTrail
    rw [List.getLast?_concat]
    simp [List.dropLast_concat]
  · decide

/-! ## C9: the ranking normalizers -/

/-- Claim C9: the four normalizers are total functions into [0,1]
returning the tabulated values; status and priority by table with 0.5
default, impact 0.5 on zero max, 0 on non-positive count, else the
clamped ratio; recency 0.5 on a zero timestamp, 1.0 in the future, else
the capped exponential decay.  math.Exp is abstracted by a nonnegative
`expf`. -/
theorem normalizers_match_claim (s : String) (p : ℤ) (b m : ℤ)
    (expf : ℚ → ℚ) (now t : ℤ) (hexp : ∀ x, 0 ≤ expf x) (hm : 0 ≤ m) :
    (normalizeStatus "open" = 1 ∧ normalizeStatus "in_progress" = 8/10
      ∧ normalizeStatus "blocked" = 5/10 ∧ normalizeStatus "closed" = 1/10
      ∧ normalizeStatus "tombstone" = 0
      ∧ (s ≠ "open" → s ≠ "in_progress" → s ≠ "blocked" → s ≠ "closed" →
          s ≠ "tombstone" → normalizeStatus s = 5/10)
      ∧ 0 ≤ normalizeStatus s ∧ normalizeStatus s ≤ 1)
    ∧ (normalizePriority 0 = 1 ∧ normalizePriority 1 = 8/10 ∧ normalizePriority 2 = 6/10
      ∧ normalizePriority 3 = 4/10 ∧ normalizePriority 4 = 2/10
      ∧ (p ≠ 0 → p ≠ 1 → p ≠ 2 → p ≠ 3 → p ≠ 4 → normalizePriority p = 5/10)
      ∧ 0 ≤ normalizePriority p ∧ normalizePriority p ≤ 1)
    ∧ ((m = 0 → normalizeImpact b m = 5/10)
      ∧ (m ≠ 0 → b ≤ 0 → normalizeImpact b m = 0)
      ∧ (0 < b → 0 < m → normalizeImpact b m = min 1 (max 0 ((b : ℚ) / (m : ℚ))))
      ∧ 0 ≤ normalizeImpact b m ∧ normalizeImpact b m ≤ 1)
    ∧ (normalizeRecency expf now none = 5/10
      ∧ (now < t → normalizeRecency expf now (some t) = 1)
      ∧ (t ≤ now → normalizeRecency expf now (some t)
          = min 1 (expf (-(((now - t : ℤ) : ℚ) / 86400) / 30)))
      ∧ 0 ≤ normalizeRecency expf now (some t)
      ∧ normalizeRecency expf now (some t) ≤ 1) := by
  refine ⟨⟨by simp +decide only [normalizeStatus] <;> norm_num, by simp +decide only [normalizeStatus] <;> norm_num,
      by simp +decide only [normalizeStatus] <;> norm_num, by simp +decide only [normalizeStatus] <;> norm_num,
      by simp +decide only [normalizeStatus] <;> norm_num, ?_, ?_, ?_⟩,
    ⟨by simp +decide only [normalizePriority] <;> norm_num, by simp +decide only [normalizePriority] <;> norm_num,
      by simp +decide only [normalizePriority] <;> norm_num, by simp +decide only [normalizePriority] <;> norm_num,
      by simp +decide only [normalizePriority] <;> norm_num, ?_, ?_, ?_⟩, ⟨?_, ?_, ?_, ?_, ?_⟩,
    ⟨rfl, ?_, ?_, ?_, ?_⟩⟩
  · intro h1 h2 h3 h4 h5
    simp [normalizeStatus, h1, h2, h3, h4, h5]
  · unfold normalizeStatus
    split_ifs <;> norm_num
  · unfold normalizeStatus
    split_ifs <;> norm_num
  · intro h1 h2 h3 h4 h5
    simp [normalizePriority, h1, h2, h3, h4, h5]
  · unfold normalizePriority
    split_ifs <;> norm_num
  · unfold normalizePriority
    split_ifs <;> norm_num
  · intro h0
    simp [normalizeImpact, h0]
  · intro h0 hb
    simp [normalizeImpact, h0, hb]
  · intro hb hmp
    unfold normalizeImpact
    have h0 : ¬ m = 0 := by omega
    have hb' : ¬ b ≤ 0 := by omega
    have hratio : (0 : ℚ) ≤ (b : ℚ) / (m : ℚ) := by
      apply div_nonneg <;> [exact_mod_cast hb.le; exact_mod_cast hmp.le]
    by_cases hge : m ≤ b
    · have hr1 : (1 : ℚ) ≤ (b : ℚ) / (m : ℚ) := by
        rw [le_div_iff (by exact_mod_cast hmp)]
        simpa using (by exact_mod_cast hge : (m : ℚ) ≤ (b : ℚ))
      simp only [h0, if_false, hb', hge, if_true]
      rw [max_eq_right hratio, min_eq_left hr1]
    · have hr1 : (b : ℚ) / (m : ℚ) ≤ 1 := by
        rw [div_le_one (by exact_mod_cast hmp)]
        exact_mod_cast (by omega : b ≤ m)
      simp only [h0, if_false, hb', hge, if_false]
      rw [max_eq_right hratio, min_eq_right hr1]
  · unfold normalizeImpact
    split_ifs with h0 hb hge
    · norm_num
    · norm_num
    · norm_num
    · push_neg at hb hge
      apply div_nonneg
      · exact_mod_cast hb.le
      · exact_mod_cast (by omega : (0 : ℤ) ≤ m)
  · unfold normalizeImpact
    split_ifs with h0 hb hge
    · norm_num
    · norm_num
    · norm_num
    · push_neg at hb hge
      rw [div_le_one (by exact_mod_cast (by omega : (0 : ℤ) < m))]
      exact_mod_cast hge.le
  · intro hlt
    have hd : ((now - t : ℤ) : ℚ) / 86400 < 0 := by
      apply div_neg_of_neg_of_pos _ (by norm_num)
      exact_mod_cast (by omega : now - t < 0)
    simp only [normalizeRecency]
    rw [if_pos hd]
  · intro hle
    unfold normalizeRecency
    have hnn : ¬ (((now - t : ℤ) : ℚ) / 86400 < 0) := by
      push_neg
      apply div_nonneg _ (by norm_num)
      exact_mod_cast (by omega : (0 : ℤ) ≤ now - t)
    simp only [hnn, if_false]
    by_cases h1 : 1 < expf (-(((now - t : ℤ) : ℚ) / 86400) / 30)
    · rw [if_pos h1, min_eq_left h1.le]
    · rw [if_neg h1, min_eq_right (not_lt.mp h1)]
  · simp only [normalizeRecency]
    split_ifs <;> first | exact hexp _ | norm_num
  · simp only [normalizeRecency]
    split_ifs with h1 h2
    · norm_num
    · norm_num
    · exact not_lt.mp h2

/-- Witness for C9 at concrete inputs. -/
theorem normalizers_match_claim_witness :
    normalizeStatus "open" = 1 ∧ normalizeImpact 2 5 = min 1 (max 0 ((2 : ℚ) / 5))
    ∧ normalizeRecency (fun _ => 1/2) 100 (some 50) = min 1 ((fun _ : ℚ => (1 : ℚ)/2)
        (-(((100 - 50 : ℤ) : ℚ) / 86400) / 30)) := by
  have h := normalizers_match_claim "weird" 7 2 5 (fun _ => 1/2) 100 50
    (by intro x; norm_num) (by norm_num)
  exact ⟨h.1.1, h.2.2.1.2.2.1 (by norm_num) (by norm_num), h.2.2.2.2.2.1 (by norm_num)⟩

/-! ## C7: impact-analysis input normalization -/

theorem impactAnalysis_unfold (fl : FileLookup) (now : ℤ) (files : List String)
    (hne : files ≠ []) :
    ImpactAnalysis fl now files
      = (if normalizeImpactFiles files = []
         then ⟨[], [], "low", 0, [], "No valid files to analyze"⟩
         else impactCore fl now (normalizeImpactFiles files)) := by
  unfold ImpactAnalysis
  rw [if_neg hne]

theorem impactCore_files (fl : FileLookup) (now : ℤ) (nf : List String) :
    (impactCore fl now nf).files = nf :=
  rfl

/-- Claim C7: ImpactAnalysis first normalizes its file list (drop empty
or whitespace-only entries, normalize paths, deduplicate) and every
downstream quantity is a function of that normalized list alone: two
inputs with the same normalized list yield identical results, and the
reported file list is the normalized list. -/
theorem impactAnalysis_uses_normalized_files (fl : FileLookup) (now : ℤ)
    (files₁ files₂ : List String) (h1 : files₁ ≠ []) (h2 : files₂ ≠ [])
    (heq : normalizeImpactFiles files₁ = normalizeImpactFiles files₂) :
    ImpactAnalysis fl now files₁ = ImpactAnalysis fl now files₂
    ∧ (ImpactAnalysis fl now files₁).files
        = (if normalizeImpactFiles files₁ = [] then []
           else normalizeImpactFiles files₁) := by
  rw [impactAnalysis_unfold fl now files₁ h1, impactAnalysis_unfold fl now files₂ h2, heq]
  refine ⟨rfl, ?_⟩
  by_cases hnf : normalizeImpactFiles files₂ = []
  · rw [if_pos hnf, if_pos hnf]
  · rw [if_neg hnf, if_neg hnf]
    exact impactCore_files fl now _

/-- Witness for C7: two raw lists normalizing to the same files. -/
theorem impactAnalysis_uses_normalized_files_witness :
    ImpactAnalysis (NewFileLookup none) 0 ["./x", "", "x", "y/"]
      = ImpactAnalysis (NewFileLookup none) 0 ["x", "y"]
    ∧ (ImpactAnalysis (NewFileLookup none) 0 ["./x", "", "x", "y/"]).files
        = (if normalizeImpactFiles ["./x", "", "x", "y/"] = [] then []
           else normalizeImpactFiles ["./x", "", "x", "y/"]) :=
  impactAnalysis_uses_normalized_files (NewFileLookup none) 0 _ _
    (by decide) (by decide) (by decide)

/-! ## C6: co-change matrix -/

theorem bumpFold_apply (A B : String) :
    ∀ (ps : List (String × String)) (m : String → String → ℕ),
      (ps.foldl (fun mm p => bumpPair mm p.1 p.2) m) A B = m A B + ps.count (A, B)
  | [], m => by simp
  | p :: ps, m => by
      rw [List.foldl_cons, bumpFold_apply A B ps, List.count_cons]
      unfold bumpPair
      by_cases hp : (A = p.1 ∧ B = p.2)
      · have hpe : (p == (A, B)) = true := by
          rw [beq_iff_eq, Prod.ext_iff]
          exact ⟨hp.1.symm, hp.2.symm⟩
        rw [if_pos hp, hpe]
        simp only [if_true]
        omega
      · have hpe : (p == (A, B)) = false := by
          rw [beq_eq_false_iff_ne]
          intro hc
          apply hp
          rw [hc]
          exact ⟨rfl, rfl⟩
        rw [if_neg hp, hpe]
        simp only [Bool.false_eq_true, if_false]
        omega

theorem countFold_apply (f : String) :
    ∀ (fs : List String) (cnt : String → ℕ),
      (fs.foldl bumpCount cnt) f = cnt f + fs.count f
  | [], cnt => by simp
  | g :: fs, cnt => by
      rw [List.foldl_cons, countFold_apply f fs, List.count_cons]
      unfold bumpCount
      by_cases hg : f = g
      · have hge : (g == f) = true := by
          rw [beq_iff_eq]
          exact hg.symm
        rw [if_pos hg, hge]
        simp only [if_true]
        omega
      · have hge : (g == f) = false := by
          rw [beq_eq_false_iff_ne]
          exact fun hc => hg hc.symm
        rw [if_neg hg, hge]
        simp only [Bool.false_eq_true, if_false]
        omega

theorem count_map_pair (a A B : String) :
    ∀ l : List String,
      ((l.map (fun b => (a, b))).count (A, B)) = if a = A then l.count B else 0
  | [] => by simp
  | b :: l => by
      rw [List.map_cons, List.count_cons, List.count_cons, count_map_pair a A B l]
      by_cases ha : a = A
      · by_cases hb : b = B
        · have hpe : ((a, b) == (A, B)) = true := by
            rw [beq_iff_eq, Prod.ext_iff]
            exact ⟨ha, hb⟩
          have hbe : (b == B) = true := by
            rw [beq_iff_eq]
            exact hb
          rw [hpe, hbe, if_pos ha, if_pos ha]
        · have hpe : ((a, b) == (A, B)) = false := by
            rw [beq_eq_false_iff_ne]
            intro hc
            exact hb (congrArg Prod.snd hc)
          have hbe : (b == B) = false := by
            rw [beq_eq_false_iff_ne]
            exact hb
          rw [hpe, hbe, if_pos ha, if_pos ha]
      · have hpe : ((a, b) == (A, B)) = false := by
          rw [beq_eq_false_iff_ne]
          intro hc
          exact ha (congrArg Prod.fst hc)
        rw [hpe, if_neg ha, if_neg ha]
        simp

theorem commitPairs_count (A B : String) (hAB : A ≠ B) :
    ∀ (l seen : List String),
      (commitPairs seen l).count (A, B)
        = l.count A * seen.count B + l.count A * l.count B
  | [], seen => by simp [commitPairs]
  | a :: r, seen => by
      unfold commitPairs
      rw [List.count_append, count_map_pair, commitPairs_count A B hAB r (seen ++ [a])]
      rw [List.count_append, List.count_append, List.count_cons, List.count_cons,
        List.count_cons, List.count_nil]
      by_cases ha : a = A
      · have hab : a ≠ B := fun hc => hAB (ha.symm.trans hc)
        have haa : (a == A) = true := by
          rw [beq_iff_eq]
          exact ha
        have habe : (a == B) = false := by
          rw [beq_eq_false_iff_ne]
          exact hab
        rw [if_pos ha, haa, habe]
        simp only [if_true, Bool.false_eq_true, if_false]
        ring
      · have haa : (a == A) = false := by
          rw [beq_eq_false_iff_ne]
          exact ha
        rw [if_neg ha, haa]
        simp only [Bool.false_eq_true, if_false]
        by_cases hab : a = B
        · have habe : (a == B) = true := by
            rw [beq_iff_eq]
            exact hab
          rw [habe]
          simp only [if_true]
          ring
        · have habe : (a == B) = false := by
            rw [beq_eq_false_iff_ne]
            exact hab
          rw [habe]
          simp only [Bool.false_eq_true, if_false]
          ring

theorem processCommit_symm (st : CoChangeMatrix × List String) (c : CorrelatedCommit)
    (h : ∀ A B, st.1.matrix A B = st.1.matrix B A) :
    ∀ A B, (processCommit st c).1.matrix A B = (processCommit st c).1.matrix B A := by
  intro A B
  unfold processCommit
  by_cases hsha : c.sha ∈ st.2
  · rw [if_pos hsha]
    exact h A B
  · rw [if_neg hsha]
    simp only
    rw [bumpFold_apply, bumpFold_apply, h A B]
    by_cases hab : A = B
    · rw [hab]
    · rw [commitPairs_count A B hab, commitPairs_count B A (Ne.symm hab)]
      simp [Nat.mul_comm]

theorem processCommit_bound (st : CoChangeMatrix × List String) (c : CorrelatedCommit)
    (hpre : (commitFileList c).Nodup)
    (h : ∀ A B, A ≠ B → st.1.matrix A B
        ≤ min (st.1.fileCommitCounts A) (st.1.fileCommitCounts B)) :
    ∀ A B, A ≠ B → (processCommit st c).1.matrix A B
      ≤ min ((processCommit st c).1.fileCommitCounts A)
          ((processCommit st c).1.fileCommitCounts B) := by
  intro A B hAB
  unfold processCommit
  by_cases hsha : c.sha ∈ st.2
  · rw [if_pos hsha]
    exact h A B hAB
  · rw [if_neg hsha]
    simp only
    rw [bumpFold_apply, countFold_apply, countFold_apply,
      commitPairs_count A B hAB (commitFileList c) []]
    have hcA : (commitFileList c).count A ≤ 1 :=
      List.nodup_iff_count_le_one.mp hpre A
    have hcB : (commitFileList c).count B ≤ 1 :=
      List.nodup_iff_count_le_one.mp hpre B
    have hmin := h A B hAB
    simp only [List.count_nil, Nat.mul_zero, Nat.zero_add]
    have h1 : st.1.matrix A B ≤ st.1.fileCommitCounts A := le_trans hmin (min_le_left _ _)
    have h2 : st.1.matrix A B ≤ st.1.fileCommitCounts B := le_trans hmin (min_le_right _ _)
    have hp1 : (commitFileList c).count A * (commitFileList c).count B
        ≤ (commitFileList c).count A := by
      calc (commitFileList c).count A * (commitFileList c).count B
          ≤ (commitFileList c).count A * 1 := Nat.mul_le_mul_left _ hcB
        _ = (commitFileList c).count A := Nat.mul_one _
    have hp2 : (commitFileList c).count A * (commitFileList c).count B
        ≤ (commitFileList c).count B := by
      calc (commitFileList c).count A * (commitFileList c).count B
          ≤ 1 * (commitFileList c).count B := Nat.mul_le_mul_right _ hcA
        _ = (commitFileList c).count B := Nat.one_mul _
    exact le_min (by omega) (by omega)

theorem foldCommits_inv (P : CoChangeMatrix × List String → Prop)
    (pre : CorrelatedCommit → Prop)
    (hstep : ∀ st c, pre c → P st → P (processCommit st c)) :
    ∀ (cs : List CorrelatedCommit) (st : CoChangeMatrix × List String),
      (∀ c ∈ cs, pre c) → P st → P (cs.foldl processCommit st)
  | [], st, _, hP => hP
  | c :: cs, st, hpre, hP => by
      rw [List.foldl_cons]
      exact foldCommits_inv P pre hstep cs _
        (fun c' hc' => hpre c' (List.mem_cons_of_mem c hc'))
        (hstep st c (hpre c (List.mem_cons_self c cs)) hP)

theorem foldHistories_inv (P : CoChangeMatrix × List String → Prop)
    (pre : CorrelatedCommit → Prop)
    (hstep : ∀ st c, pre c → P st → P (processCommit st c)) :
    ∀ (hs : List (String × BeadHistory)) (st : CoChangeMatrix × List String),
      (∀ hb ∈ hs, ∀ c ∈ hb.2.commits, pre c) → P st →
      P (hs.foldl (fun st hb => hb.2.commits.foldl processCommit st) st)
  | [], st, _, hP => hP
  | hb :: hs, st, hpre, hP => by
      rw [List.foldl_cons]
      exact foldHistories_inv P pre hstep hs _
        (fun hb' hb'm => hpre hb' (List.mem_cons_of_mem hb hb'm))
        (foldCommits_inv P pre hstep hb.2.commits st
          (hpre hb (List.mem_cons_self hb hs)) hP)

/-- Counterexample to C6: when one commit's normalized file list contains
a duplicate path ("x" and "./x" both normalize to "x"), the co-change
count exceeds the per-file commit-count bound: matrix["x"]["y"] = 2 but
min(counts["x"], counts["y"]) = 1. -/
theorem coChange_bound_fails_on_duplicates :
    (BuildCoChangeMatrix (some dupFilesReport)).matrix "x" "y" = 2
    ∧ (BuildCoChangeMatrix (some dupFilesReport)).fileCommitCounts "x" = 2
    ∧ (BuildCoChangeMatrix (some dupFilesReport)).fileCommitCounts "y" = 1
    ∧ ¬((BuildCoChangeMatrix (some dupFilesReport)).matrix "x" "y"
        ≤ min ((BuildCoChangeMatrix (some dupFilesReport)).fileCommitCounts "x")
            ((BuildCoChangeMatrix (some dupFilesReport)).fileCommitCounts "y")) :=
  ⟨by decide, by decide, by decide, by decide⟩

/-- Claim C6 (amended): the co-change matrix is symmetric for every
input; and whenever every commit's normalized file list is free of
duplicates, matrix[A][B] is bounded by the smaller of the two files'
commit counts. -/
theorem coChange_symm_and_bound (report : HistoryReport) (A B : String) (hAB : A ≠ B) :
    (BuildCoChangeMatrix (some report)).matrix A B
      = (BuildCoChangeMatrix (some report)).matrix B A
    ∧ ((∀ hb ∈ report.histories, ∀ c ∈ hb.2.commits, (commitFileList c).Nodup) →
        (BuildCoChangeMatrix (some report)).matrix A B
          ≤ min ((BuildCoChangeMatrix (some report)).fileCommitCounts A)
              ((BuildCoChangeMatrix (some report)).fileCommitCounts B)) := by
  constructor
  · have := foldHistories_inv
      (fun st => ∀ X Y, st.1.matrix X Y = st.1.matrix Y X)
      (fun _ => True)
      (fun st c _ hP => processCommit_symm st c hP)
      report.histories (⟨fun _ _ => 0, fun _ => 0, []⟩, [])
      (fun _ _ _ _ => trivial) (fun _ _ => rfl)
    exact this A B
  · intro hnd
    have := foldHistories_inv
      (fun st => ∀ X Y, X ≠ Y → st.1.matrix X Y
          ≤ min (st.1.fileCommitCounts X) (st.1.fileCommitCounts Y))
      (fun c => (commitFileList c).Nodup)
      (fun st c hc hP => processCommit_bound st c hc hP)
      report.histories (⟨fun _ _ => 0, fun _ => 0, []⟩, [])
      hnd (fun _ _ _ => Nat.zero_le _)
    exact this A B hAB

/-- Witness for C6 on the demo report (duplicate-free file lists). -/
theorem coChange_symm_and_bound_witness :
    (BuildCoChangeMatrix (some demoReport)).matrix "main.go" "other.go"
      = (BuildCoChangeMatrix (some demoReport)).matrix "other.go" "main.go"
    ∧ (BuildCoChangeMatrix (some demoReport)).matrix "main.go" "other.go"
        ≤ min ((BuildCoChangeMatrix (some demoReport)).fileCommitCounts "main.go")
            ((BuildCoChangeMatrix (some demoReport)).fileCommitCounts "other.go") := by
  have h := coChange_symm_and_bound demoReport "main.go" "other.go" (by decide)
  exact ⟨h.1, h.2 (by decide)⟩

/-! ## C10: eigenvector centrality on an edgeless graph -/

theorem eigenStep_no_edges (nodes : List ℕ) (vec : List ℚ) :
    eigenStep nodes [] vec = nodes.map (fun _ => 0) := by
  unfold eigenStep
  rfl

theorem eigenLoop_no_edges (sqrtf : ℚ → ℚ) (nodes : List ℕ) :
    ∀ (k : ℕ) (vec : List ℚ), eigenLoop sqrtf nodes [] k vec = vec
  | 0, vec => rfl
  | k + 1, vec => by
      unfold eigenLoop
      rw [eigenStep_no_edges]
      have hz : (((nodes.map (fun _ => (0 : ℚ))).map (fun v => v * v)).sum) = 0 := by
        apply List.sum_eq_zero
        intro x hx
        rcases List.mem_map.mp hx with ⟨y, hy, hyx⟩
        rcases List.mem_map.mp hy with ⟨_, _, hzy⟩
        rw [← hyx, ← hzy]
        norm_num
      simp only [hz]
      simp

theorem foldUpd_not_mem (x : ℕ) :
    ∀ (ps : List (ℕ × ℚ)) (acc : ℕ → ℚ), x ∉ ps.map (·.1) →
      (ps.foldl (fun acc kv => fun y => if y = kv.1 then kv.2 else acc y) acc) x = acc x
  | [], _, _ => rfl
  | p :: ps, acc, hx => by
      rw [List.foldl_cons]
      rw [foldUpd_not_mem x ps _ (fun hm => hx (by simp [hm]))]
      have : x ≠ p.1 := fun hc => hx (by simp [hc])
      simp [this]

theorem foldUpd_const (x : ℕ) (c : ℚ) :
    ∀ (ps : List (ℕ × ℚ)) (acc : ℕ → ℚ),
      (∀ p ∈ ps, p.2 = c) → x ∈ ps.map (·.1) →
      (ps.foldl (fun acc kv => fun y => if y = kv.1 then kv.2 else acc y) acc) x = c
  | [], _, _, hm => absurd hm (by simp)
  | p :: ps, acc, hc, hm => by
      rw [List.foldl_cons]
      by_cases hrest : x ∈ ps.map (·.1)
      · exact foldUpd_const x c ps _ (fun q hq => hc q (List.mem_cons_of_mem p hq)) hrest
      · have hx : x = p.1 := by
          rcases List.mem_map.mp hm with ⟨q, hq, hqx⟩
          rcases List.mem_cons.mp hq with hq | hq
          · rw [← hqx, hq]
          · exact absurd (List.mem_map.mpr ⟨q, hq, hqx⟩) hrest
        rw [foldUpd_not_mem x ps _ hrest]
        simp [hx, hc p (List.mem_cons_self p ps)]

/-- Claim C10: on a nonempty graph with no edges, computeEigenvector
returns 1/V for every node (the first power-iteration product is zero,
the loop exits before overwriting the state, and the uniform initial
vector is returned), which is not zero. -/
theorem eigenvector_uniform_on_edgeless (sqrtf : ℚ → ℚ) (nodes : List ℕ)
    (hne : nodes ≠ []) :
    (∀ nid ∈ nodes, computeEigenvector sqrtf nodes [] nid = 1 / (nodes.length : ℚ))
    ∧ (1 : ℚ) / (nodes.length : ℚ) ≠ 0 := by
  constructor
  · intro nid hnid
    unfold computeEigenvector
    rw [if_neg hne]
    simp only [eigenLoop_no_edges]
    apply foldUpd_const
    · intro p hp
      have := (List.of_mem_zip hp).2
      exact List.eq_of_mem_replicate this
    · have hlen : nodes.length ≤ (List.replicate nodes.length ((1 : ℚ) / nodes.length)).length := by
        rw [List.length_replicate]
      rw [List.map_fst_zip nodes _ hlen]
      exact hnid
  · apply one_div_ne_zero
    have : 0 < nodes.length := List.length_pos.mpr hne
    exact_mod_cast Nat.pos_iff_ne_zero.mp this

/-- Witness for C10 on a two-node edgeless graph. -/
theorem eigenvector_uniform_on_edgeless_witness :
    (∀ nid ∈ [5, 7], computeEigenvector (fun q => q) [5, 7] [] nid
      = 1 / (([5, 7] : List ℕ).length : ℚ))
    ∧ (1 : ℚ) / (([5, 7] : List ℕ).length : ℚ) ≠ 0 :=
  eigenvector_uniform_on_edgeless (fun q => q) [5, 7] (by decide)

/-! ## C5: approximate betweenness -/

theorem networkBetweenness_nil (edges : List (ℕ × ℕ)) :
    networkBetweenness [] edges = fun _ => 0 :=
  rfl

/-- Claim C5: ApproxBetweenness with k covering the (identifier-sorted)
node set returns the exact full-Brandes scores with mode "exact" and
sample size n; with k < n it accumulates single-source Brandes
contributions from the first k pivots of the seeded Fisher–Yates shuffle
of the sorted nodes, scaled by n/k; the pre-sampling node order is
sorted ascending; and the recommended sample size follows the
V<100 / max(50,V/5) / 100 / 200 table.  The result is a pure function of
(graph, k, seed), so determinism is definitional. -/
theorem approxBetweenness_matches_claim (nodes0 : List ℕ) (edges : List (ℕ × ℕ))
    (k : ℕ) (s : ℤ) (nodeCount edgeCount : ℕ) :
    ((ApproxBetweenness nodes0 edges k s).scores
      = (if (sortedNodeIds nodes0).length ≤ k
         then networkBetweenness (sortedNodeIds nodes0) edges
         else fun id =>
           ((sampleNodes (sortedNodeIds nodes0) k s).foldl
             (fun bc p => singleSourceBetweenness (sortedNodeIds nodes0) edges p bc)
             (fun _ => 0)) id
           * (((sortedNodeIds nodes0).length : ℚ) / (k : ℚ))))
    ∧ (ApproxBetweenness nodes0 edges k s).mode
      = (if (sortedNodeIds nodes0).length = 0 then "approximate"
         else if (sortedNodeIds nodes0).length ≤ k then "exact" else "approximate")
    ∧ (ApproxBetweenness nodes0 edges k s).sampleSize
      = (if (sortedNodeIds nodes0).length = 0 then k
         else if (sortedNodeIds nodes0).length ≤ k then (sortedNodeIds nodes0).length
         else k)
    ∧ (sortedNodeIds nodes0).Pairwise (· ≤ ·)
    ∧ RecommendSampleSize nodeCount edgeCount
      = (if nodeCount < 100 then nodeCount
         else if nodeCount < 500 then max 50 (nodeCount / 5)
         else if nodeCount < 2000 then 100 else 200) := by
  refine ⟨?_, ?_, ?_, ?_, ?_⟩
  · unfold ApproxBetweenness
    by_cases h0 : (sortedNodeIds nodes0).length = 0
    · have hnil : sortedNodeIds nodes0 = [] := List.length_eq_zero.mp h0
      have hk : (sortedNodeIds nodes0).length ≤ k := by omega
      simp only [h0, if_true, if_pos hk, hnil, networkBetweenness_nil]
      simp
    · by_cases hk : (sortedNodeIds nodes0).length ≤ k
      · simp only [h0, if_false, if_pos hk]
      · simp only [h0, if_false, if_neg hk]
  · unfold ApproxBetweenness
    by_cases h0 : (sortedNodeIds nodes0).length = 0
    · simp only [h0, if_true]
    · by_cases hk : (sortedNodeIds nodes0).length ≤ k
      · simp only [h0, if_false, if_pos hk]
      · simp only [h0, if_false, if_neg hk]
  · unfold ApproxBetweenness
    by_cases h0 : (sortedNodeIds nodes0).length = 0
    · simp only [h0, if_true]
    · by_cases hk : (sortedNodeIds nodes0).length ≤ k
      · simp only [h0, if_false, if_pos hk]
      · simp only [h0, if_false, if_neg hk]
  · have h := sortB_sorted (fun a b : ℕ => decide (a ≤ b))
      (fun a b c h1 h2 => by
        rw [decide_eq_true_eq] at *
        omega)
      (fun a b => by
        rcases Nat.le_total a b with h | h
        · exact Or.inl (by rw [decide_eq_true_eq]; exact h)
        · exact Or.inr (by rw [decide_eq_true_eq]; exact h))
      nodes0
    unfold sortedNodeIds
    exact h.imp (fun hd => by rwa [decide_eq_true_eq] at hd)
  · unfold RecommendSampleSize
    by_cases h1 : nodeCount < 100
    · simp [h1]
    · by_cases h2 : nodeCount < 500
      · simp only [h1, if_false, h2, if_true]
        by_cases h3 : 50 < nodeCount / 5
        · rw [if_pos h3, max_eq_right (by omega)]
        · rw [if_neg h3, max_eq_left (by omega)]
      · by_cases h3 : nodeCount < 2000 <;> simp [h1, h2, h3]

/-! ## C3: topological sort and critical-path depth -/

theorem kahn_perm (edges : List (ℕ × ℕ)) :
    ∀ (fuel : ℕ) (r o : List ℕ), kahn edges fuel r = some o → o.Perm r := by
  intro fuel
  induction fuel with
  | zero =>
      intro r o h
      cases r with
      | nil =>
          unfold kahn at h
          rw [Option.some_inj] at h
          rw [← h]
      | cons a r' => exact absurd h (by unfold kahn; simp)
  | succ fuel ih =>
      intro r o h
      cases r with
      | nil =>
          unfold kahn at h
          rw [Option.some_inj] at h
          rw [← h]
      | cons a r' =>
          unfold kahn at h
          rcases hf : (a :: r').find? (kahnReady edges (a :: r')) with _ | v
          · rw [hf] at h
            exact absurd h (by simp)
          · rw [hf] at h
            have h' : Option.map (fun rest => v :: rest)
                (kahn edges fuel ((a :: r').erase v)) = some o := h
            rcases ho : kahn edges fuel ((a :: r').erase v) with _ | rest
            · rw [ho] at h'
              exact absurd h' (by simp)
            · rw [ho] at h'
              rw [show Option.map (fun rest => v :: rest) (some rest) = some (v :: rest) from rfl,
                Option.some_inj] at h'
              have hperm := ih _ _ ho
              have hv : v ∈ a :: r' := List.mem_of_find?_eq_some hf
              rw [← h']
              exact (hperm.cons v).trans (List.perm_cons_erase hv).symm

theorem kahnReady_no_pred (edges : List (ℕ × ℕ)) (r : List ℕ) (w : ℕ)
    (h : kahnReady edges r w = true) : ∀ x ∈ r, (x, w) ∉ edges := by
  unfold kahnReady at h
  rw [Bool.not_eq_eq_eq_not, Bool.not_true, List.any_eq_false] at h
  intro x hx hc
  exact h x hx (by rw [decide_eq_true_eq]; exact hc)

theorem kahn_before (edges : List (ℕ × ℕ)) :
    ∀ (fuel : ℕ) (r o : List ℕ), kahn edges fuel r = some o →
      ∀ u v, (u, v) ∈ edges → u ∈ o → v ∈ o →
        ∃ o₁ o₂, o = o₁ ++ u :: o₂ ∧ v ∈ o₂ := by
  intro fuel
  induction fuel with
  | zero =>
      intro r o h u v _ hu _
      cases r with
      | nil =>
          unfold kahn at h
          rw [Option.some_inj] at h
          rw [← h] at hu
          exact absurd hu (List.not_mem_nil u)
      | cons a r' => exact absurd h (by unfold kahn; simp)
  | succ fuel ih =>
      intro r o h u v he hu hv
      cases r with
      | nil =>
          unfold kahn at h
          rw [Option.some_inj] at h
          rw [← h] at hu
          exact absurd hu (List.not_mem_nil u)
      | cons a r' =>
          unfold kahn at h
          rcases hf : (a :: r').find? (kahnReady edges (a :: r')) with _ | w
          · rw [hf] at h
            exact absurd h (by simp)
          · rw [hf] at h
            have h' : Option.map (fun rest => w :: rest)
                (kahn edges fuel ((a :: r').erase w)) = some o := h
            rcases ho : kahn edges fuel ((a :: r').erase w) with _ | rest
            · rw [ho] at h'
              exact absurd h' (by simp)
            · rw [ho] at h'
              rw [show Option.map (fun rest => w :: rest) (some rest) = some (w :: rest) from rfl,
                Option.some_inj] at h'
              have hready := kahnReady_no_pred edges (a :: r') w (List.find?_some hf)
              have hrperm : rest.Perm ((a :: r').erase w) := kahn_perm edges fuel _ _ ho
              have hvw : v ≠ w := by
                intro hc
                have hur : u ∈ a :: r' := by
                  have hmem : u ∈ o := hu
                  rw [← h'] at hmem
                  rcases List.mem_cons.mp hmem with h2 | h2
                  · rw [h2]
                    exact List.mem_of_find?_eq_some hf
                  · exact List.mem_of_mem_erase (hrperm.mem_iff.mp h2)
                exact hready u hur (hc ▸ he)
              have hvrest : v ∈ rest := by
                rw [← h'] at hv
                rcases List.mem_cons.mp hv with h2 | h2
                · exact absurd h2 hvw
                · exact h2
              by_cases huw : u = w
              · refine ⟨[], rest, ?_, hvrest⟩
                rw [← h', huw]
                rfl
              · have hurest : u ∈ rest := by
                  rw [← h'] at hu
                  rcases List.mem_cons.mp hu with h2 | h2
                  · exact absurd h2 huw
                  · exact h2
                rcases ih _ _ ho u v he hurest hvrest with ⟨r₁, r₂, hsplit, hvr₂⟩
                exact ⟨w :: r₁, r₂, by rw [← h', hsplit]; rfl, hvr₂⟩

theorem indexOf_lt_of_split (o o₁ o₂ : List ℕ) (u v : ℕ) (hnd : o.Nodup)
    (hsplit : o = o₁ ++ u :: o₂) (hv : v ∈ o₂) :
    o.indexOf u < o.indexOf v := by
  subst hsplit
  have hdisj := List.disjoint_of_nodup_append hnd
  have hu1 : u ∉ o₁ := fun hc => hdisj hc (List.mem_cons_self u o₂)
  have hv1 : v ∉ o₁ := fun hc => hdisj hc (List.mem_cons_of_mem u hv)
  have huv : u ≠ v := by
    intro hc
    have h2 := List.Nodup.of_append_right hnd
    rw [hc] at h2
    exact (List.nodup_cons.mp h2).1 (hc ▸ hv)
  rw [List.indexOf_append_of_not_mem hu1, List.indexOf_append_of_not_mem hv1,
    List.indexOf_cons_self, List.indexOf_cons_ne _ huv]
  omega

theorem cycle_of_all_pred (r : List ℕ) (edges : List (ℕ × ℕ)) (hne : r ≠ [])
    (hpred : ∀ x ∈ r, ∃ u ∈ r, (u, x) ∈ edges) : hasCycle edges := by
  classical
  have hstep : ∀ t : {x : ℕ // x ∈ r}, ∃ u : {x : ℕ // x ∈ r}, (u.val, t.val) ∈ edges := by
    rintro ⟨x, hx⟩
    rcases hpred x hx with ⟨u, hu, he⟩
    exact ⟨⟨u, hu⟩, he⟩
  choose g hg using hstep
  obtain ⟨v₀, hv₀⟩ : ∃ x, x ∈ r := by
    cases r with
    | nil => exact absurd rfl hne
    | cons a r' => exact ⟨a, List.mem_cons_self a r'⟩
  have hchain : ∀ d i, Relation.TransGen (edgeRel edges)
      (g^[i + d + 1] ⟨v₀, hv₀⟩).val (g^[i] ⟨v₀, hv₀⟩).val := by
    intro d
    induction d with
    | zero =>
        intro i
        apply Relation.TransGen.single
        have h1 : g^[i + 0 + 1] (⟨v₀, hv₀⟩ : {x : ℕ // x ∈ r})
            = g (g^[i] ⟨v₀, hv₀⟩) := by
          rw [show i + 0 + 1 = i + 1 from rfl]
          exact Function.iterate_succ_apply' g i _
        rw [h1]
        exact hg _
    | succ d ihd =>
        intro i
        have h1 : g^[i + (d + 1) + 1] (⟨v₀, hv₀⟩ : {x : ℕ // x ∈ r})
            = g (g^[i + d + 1] ⟨v₀, hv₀⟩) := by
          rw [show i + (d + 1) + 1 = (i + d + 1) + 1 from by omega]
          exact Function.iterate_succ_apply' g _ _
        refine Relation.TransGen.head ?_ (ihd i)
        show edgeRel edges (g^[i + (d + 1) + 1] (⟨v₀, hv₀⟩ : {x : ℕ // x ∈ r})).val
          (g^[i + d + 1] (⟨v₀, hv₀⟩ : {x : ℕ // x ∈ r})).val
        rw [h1]
        exact hg _
  have hmaps : ∀ n ∈ Finset.range (r.length + 1),
      (g^[n] (⟨v₀, hv₀⟩ : {x : ℕ // x ∈ r})).val ∈ r.toFinset := by
    intro n _
    exact List.mem_toFinset.mpr (g^[n] ⟨v₀, hv₀⟩).prop
  have hcard : r.toFinset.card < (Finset.range (r.length + 1)).card := by
    rw [Finset.card_range]
    exact Nat.lt_succ_of_le (List.toFinset_card_le r)
  rcases Finset.exists_ne_map_eq_of_card_lt_of_maps_to hcard hmaps
    with ⟨i, _, j, _, hij, heq⟩
  rcases Nat.lt_or_ge i j with hlt | hge
  · have hc := hchain (j - i - 1) i
    rw [show i + (j - i - 1) + 1 = j from by omega] at hc
    rw [heq] at hc
    exact ⟨_, hc⟩
  · have hlt' : j < i := by omega
    have hc := hchain (i - j - 1) j
    rw [show j + (i - j - 1) + 1 = i from by omega] at hc
    rw [← heq] at hc
    exact ⟨_, hc⟩

theorem kahn_complete (edges : List (ℕ × ℕ)) (hacy : ¬ hasCycle edges) :
    ∀ (fuel : ℕ) (r : List ℕ), r.length ≤ fuel → ∃ o, kahn edges fuel r = some o := by
  intro fuel
  induction fuel with
  | zero =>
      intro r hr
      cases r with
      | nil => exact ⟨[], rfl⟩
      | cons a r' => simp at hr
  | succ fuel ih =>
      intro r hr
      cases r with
      | nil => exact ⟨[], rfl⟩
      | cons a r' =>
          rcases hf : (a :: r').find? (kahnReady edges (a :: r')) with _ | v
          · exfalso
            rw [List.find?_eq_none] at hf
            have hpred : ∀ x ∈ a :: r', ∃ u ∈ a :: r', (u, x) ∈ edges := by
              intro x hx
              have h2 := hf x hx
              unfold kahnReady at h2
              rw [Bool.not_eq_true, Bool.not_eq_eq_eq_not, Bool.not_false] at h2
              rcases List.any_eq_true.mp h2 with ⟨u, hu, hdec⟩
              exact ⟨u, hu, of_decide_eq_true hdec⟩
            exact hacy (cycle_of_all_pred (a :: r') edges (by simp) hpred)
          · have hlen : ((a :: r').erase v).length ≤ fuel := by
              have hv : v ∈ a :: r' := List.mem_of_find?_eq_some hf
              have h2 := List.length_erase_of_mem hv
              simp only [List.length_cons] at h2 hr
              omega
            rcases ih _ hlen with ⟨rest, hrest⟩
            refine ⟨v :: rest, ?_⟩
            unfold kahn
            rw [hf]
            show Option.map (fun rest => v :: rest) (kahn edges fuel ((a :: r').erase v))
              = some (v :: rest)
            rw [hrest]
            rfl

theorem kahn_some_acyclic (nodes : List ℕ) (edges : List (ℕ × ℕ)) (o : List ℕ)
    (hnd : nodes.Nodup) (hwf : ∀ e ∈ edges, e.1 ∈ nodes ∧ e.2 ∈ nodes)
    (h : topoSort nodes edges = some o) : ¬ hasCycle edges := by
  rintro ⟨v, hcyc⟩
  have hperm := kahn_perm edges nodes.length nodes o h
  have hond : o.Nodup := hperm.nodup_iff.mpr hnd
  have key : ∀ a b, Relation.TransGen (edgeRel edges) a b →
      a ∈ o ∧ b ∈ o ∧ o.indexOf a < o.indexOf b := by
    intro a b hab
    induction hab with
    | single hstep =>
        have hao : _ ∈ o := hperm.mem_iff.mpr (hwf _ hstep).1
        have hbo : _ ∈ o := hperm.mem_iff.mpr (hwf _ hstep).2
        rcases kahn_before edges nodes.length nodes o h _ _ hstep hao hbo
          with ⟨o₁, o₂, hs, hv2⟩
        exact ⟨hao, hbo, indexOf_lt_of_split o o₁ o₂ _ _ hond hs hv2⟩
    | tail _ hbc ih =>
        have hbo : _ ∈ o := hperm.mem_iff.mpr (hwf _ hbc).1
        have hco : _ ∈ o := hperm.mem_iff.mpr (hwf _ hbc).2
        rcases kahn_before edges nodes.length nodes o h _ _ hbc hbo hco
          with ⟨o₁, o₂, hs, hv2⟩
        exact ⟨ih.1, hco, lt_trans ih.2.2 (indexOf_lt_of_split o o₁ o₂ _ _ hond hs hv2)⟩
  exact absurd (key v v hcyc).2.2 (lt_irrefl _)

theorem heightAcc_le_fold (hmap : ℕ → Option ℚ) :
    ∀ (l : List ℕ) (acc : ℚ),
      acc ≤ l.foldl (fun acc p =>
        match hmap p with
        | some h => if acc < h then h else acc
        | none => acc) acc
  | [], acc => le_refl acc
  | p :: l, acc => by
      rw [List.foldl_cons]
      have hstep : acc ≤ (match hmap p with
          | some h => if acc < h then h else acc
          | none => acc) := by
        rcases hm : hmap p with _ | h
        · exact le_refl acc
        · by_cases hlt : acc < h
          · simp only [hlt, if_true]
            exact hlt.le
          · simp only [hlt, if_false]
            exact le_refl acc
      exact le_trans hstep (heightAcc_le_fold hmap l _)

theorem heightFold_ge_mem (hmap : ℕ → Option ℚ) :
    ∀ (l : List ℕ) (acc : ℚ) (p : ℕ) (h : ℚ), p ∈ l → hmap p = some h →
      h ≤ l.foldl (fun acc p =>
        match hmap p with
        | some h => if acc < h then h else acc
        | none => acc) acc
  | [], _, p, _, hp, _ => absurd hp (List.not_mem_nil p)
  | q :: l, acc, p, h, hp, hm => by
      rw [List.foldl_cons]
      rcases List.mem_cons.mp hp with hpq | hpl
      · have hstep : h ≤ (match hmap q with
            | some h' => if acc < h' then h' else acc
            | none => acc) := by
          rw [← hpq, hm]
          by_cases hlt : acc < h
          · simp only [hlt, if_true]
            exact le_refl h
          · simp only [hlt, if_false]
            exact not_lt.mp hlt
        exact le_trans hstep (heightAcc_le_fold hmap l _)
      · exact heightFold_ge_mem hmap l _ p h hpl hm

theorem maxParentHeight_ge (edges : List (ℕ × ℕ)) (hmap : ℕ → Option ℚ)
    (u v : ℕ) (h : ℚ) (he : (u, v) ∈ edges) (hm : hmap u = some h) :
    h ≤ maxParentHeight edges hmap v := by
  unfold maxParentHeight
  apply heightFold_ge_mem hmap _ _ u h _ hm
  apply List.mem_map.mpr
  refine ⟨(u, v), List.mem_filter.mpr ⟨he, by simp⟩, rfl⟩

theorem heightsFold_not_mem (edges : List (ℕ × ℕ)) (x : ℕ) :
    ∀ (l : List ℕ) (m : ℕ → Option ℚ), x ∉ l →
      l.foldl (heightStep edges) m x = m x
  | [], _, _ => rfl
  | a :: l, m, hx => by
      rw [List.foldl_cons]
      rw [heightsFold_not_mem edges x l _ (fun hc => hx (List.mem_cons_of_mem a hc))]
      unfold heightStep
      have : x ≠ a := fun hc => hx (hc ▸ List.mem_cons_self a l)
      simp [this]

theorem heightsFold_root (edges : List (ℕ × ℕ)) (v : ℕ)
    (hnoin : ∀ u, (u, v) ∉ edges) :
    ∀ (l : List ℕ) (m : ℕ → Option ℚ), v ∈ l → l.Nodup →
      l.foldl (heightStep edges) m v = some 1
  | [], _, hv, _ => absurd hv (List.not_mem_nil v)
  | a :: l, m, hv, hnd => by
      rw [List.foldl_cons]
      by_cases hav : a = v
      · subst hav
        rw [heightsFold_not_mem edges a l _ (List.nodup_cons.mp hnd).1]
        unfold heightStep
        have hfil : edges.filter (fun e => decide (e.2 = a)) = [] := by
          rw [List.filter_eq_nil]
          intro e hee
          rw [decide_eq_true_eq]
          intro hc
          exact hnoin e.1 (by rw [← hc]; exact hee)
        rw [if_pos rfl]
        unfold maxParentHeight
        rw [hfil]
        norm_num
      · rcases List.mem_cons.mp hv with hva | hvl
        · exact absurd hva.symm hav
        · exact heightsFold_root edges v hnoin l _ hvl (List.nodup_cons.mp hnd).2

theorem heightsFold_after (edges : List (ℕ × ℕ)) (u v : ℕ) (he : (u, v) ∈ edges) :
    ∀ (l : List ℕ) (m : ℕ → Option ℚ) (hu : ℚ),
      m u = some hu → u ∉ l → v ∈ l → l.Nodup →
      ∃ hv, l.foldl (heightStep edges) m v = some hv ∧ 1 + hu ≤ hv
  | [], _, _, _, _, hv, _ => absurd hv (List.not_mem_nil v)
  | a :: l, m, hu, hmu, hul, hv, hnd => by
      rw [List.foldl_cons]
      by_cases hav : a = v
      · subst hav
        rw [heightsFold_not_mem edges a l _ (List.nodup_cons.mp hnd).1]
        refine ⟨1 + maxParentHeight edges m a, ?_, ?_⟩
        · unfold heightStep
          rw [if_pos rfl]
        · have := maxParentHeight_ge edges m u a hu he hmu
          linarith
      · rcases List.mem_cons.mp hv with hva | hvl
        · exact absurd hva.symm hav
        · have hmu' : heightStep edges m a u = some hu := by
            unfold heightStep
            have hua : u ≠ a := fun hc => hul (hc ▸ List.mem_cons_self a l)
            rw [if_neg hua]
            exact hmu
          exact heightsFold_after edges u v he l _ hu hmu'
            (fun hc => hul (List.mem_cons_of_mem a hc)) hvl (List.nodup_cons.mp hnd).2

theorem computeHeights_edge_mono (edges : List (ℕ × ℕ)) (o o₁ o₂ : List ℕ) (u v : ℕ)
    (hsplit : o = o₁ ++ u :: o₂) (hv : v ∈ o₂) (hnd : o.Nodup) (he : (u, v) ∈ edges) :
    ∃ hu hv', computeHeights edges o u = some hu ∧ computeHeights edges o v = some hv'
      ∧ hu + 1 ≤ hv' := by
  subst hsplit
  have hnd2 : (u :: o₂).Nodup := List.Nodup.of_append_right hnd
  have huo₂ : u ∉ o₂ := (List.nodup_cons.mp hnd2).1
  have hndo₂ : o₂.Nodup := (List.nodup_cons.mp hnd2).2
  unfold computeHeights
  rw [List.foldl_append, List.foldl_cons]
  have hm2u : heightStep edges (o₁.foldl (heightStep edges) (fun _ => none)) u u
      = some (1 + maxParentHeight edges (o₁.foldl (heightStep edges) (fun _ => none)) u) := by
    unfold heightStep
    rw [if_pos rfl]
  rcases heightsFold_after edges u v he o₂ _ _ hm2u huo₂ hv hndo₂ with ⟨hv', hfv, hle⟩
  refine ⟨1 + maxParentHeight edges (o₁.foldl (heightStep edges) (fun _ => none)) u,
    hv', ?_, hfv, by linarith⟩
  rw [heightsFold_not_mem edges u o₂ _ huo₂]
  exact hm2u

/-- Claim C3: with unique node ids and edges inside the node set, an
acyclic graph gets critical-path scores in which every node that no
other node depends on (in-degree 0) has depth exactly 1 and every edge
u→v (u depends on v) satisfies depth(v) ≥ 1 + depth(u); a cyclic graph
gets no critical-path scores at all. -/
theorem criticalPath_matches_claim (nodes : List ℕ) (edges : List (ℕ × ℕ))
    (hnd : nodes.Nodup) (hwf : ∀ e ∈ edges, e.1 ∈ nodes ∧ e.2 ∈ nodes) :
    (¬ hasCycle edges →
      ∃ f, criticalScores nodes edges = some f
        ∧ (∀ v ∈ nodes, (∀ u, (u, v) ∉ edges) → f v = some 1)
        ∧ (∀ u v, (u, v) ∈ edges →
            ∃ hu hv, f u = some hu ∧ f v = some hv ∧ hu + 1 ≤ hv))
    ∧ (hasCycle edges → criticalScores nodes edges = none) := by
  constructor
  · intro hacy
    rcases kahn_complete edges hacy nodes.length nodes (le_refl _) with ⟨o, ho⟩
    have hperm := kahn_perm edges nodes.length nodes o ho
    have hond : o.Nodup := hperm.nodup_iff.mpr hnd
    refine ⟨computeHeights edges o, ?_, ?_, ?_⟩
    · unfold criticalScores topoSort
      rw [ho]
      rfl
    · intro v hvn hnoin
      exact heightsFold_root edges v hnoin o (fun _ => none) (hperm.mem_iff.mpr hvn) hond
    · intro u v he
      have hao : u ∈ o := hperm.mem_iff.mpr (hwf _ he).1
      have hbo : v ∈ o := hperm.mem_iff.mpr (hwf _ he).2
      rcases kahn_before edges nodes.length nodes o ho u v he hao hbo
        with ⟨o₁, o₂, hs, hv2⟩
      exact computeHeights_edge_mono edges o o₁ o₂ u v hs hv2 hond he
  · intro hcyc
    unfold criticalScores
    rcases hts : topoSort nodes edges with _ | o
    · rfl
    · exact absurd hcyc (kahn_some_acyclic nodes edges o hnd hwf hts)

/-- Witness for C3 on the two-edge chain graph. -/
theorem criticalPath_matches_claim_witness :
    (¬ hasCycle chainEdges →
      ∃ f, criticalScores chainNodes chainEdges = some f
        ∧ (∀ v ∈ chainNodes, (∀ u, (u, v) ∉ chainEdges) → f v = some 1)
        ∧ (∀ u v, (u, v) ∈ chainEdges →
            ∃ hu hv, f u = some hu ∧ f v = some hv ∧ hu + 1 ≤ hv))
    ∧ (hasCycle chainEdges → criticalScores chainNodes chainEdges = none) :=
  criticalPath_matches_claim chainNodes chainEdges (by decide) (by decide)

end BV
